import Mathlib

/-!
Shallow embedding of the qcm-parser repository (src/src/index.ts,
src/unnamed/part_001 = utils.ts with finalizeQuestions, src/unnamed/part_002
= types.ts) in Lean 4.

Strings are modelled as `List Char`.  JavaScript numbers that the code only
ever produces from `parseInt` on a digit string (the question scores) are
modelled as `Nat`.  Exceptions are modelled with `Except PErr`, where the
inductive `PErr` carries exactly the data interpolated into each `Error`
message of the source.
-/

namespace QcmParser

/-- Whitespace class of JavaScript: the characters matched by `\s` and
removed by `String.prototype.trim` / `trimEnd` (ECMAScript WhiteSpace and
LineTerminator code points). -/
def isJsSpace (c : Char) : Bool :=
  let n := c.toNat
  n == 32 || n == 9 || n == 10 || n == 11 || n == 12 || n == 13 ||
  n == 0xa0 || n == 0x1680 || (decide (0x2000 ≤ n) && decide (n ≤ 0x200a)) ||
  n == 0x2028 || n == 0x2029 || n == 0x202f || n == 0x205f || n == 0x3000 ||
  n == 0xfeff

/-- Characters matched by `.` in a JavaScript regex without the `s` flag:
everything except the four LineTerminator code points. -/
def isDotChar (c : Char) : Bool :=
  let n := c.toNat
  !(n == 10 || n == 13 || n == 0x2028 || n == 0x2029)

/-- Decimal digit, the `\d` class. -/
def isDigit (c : Char) : Bool :=
  decide (48 ≤ c.toNat) && decide (c.toNat ≤ 57)

/-- Left part of `String.prototype.trim`. -/
def trimLeft (s : List Char) : List Char := s.dropWhile isJsSpace

/-- `String.prototype.trimEnd`. -/
def trimEndL (s : List Char) : List Char := (s.reverse.dropWhile isJsSpace).reverse

/-- `String.prototype.trim`. -/
def trim (s : List Char) : List Char := trimEndL (trimLeft s)

/-- Prepend a character to the first line of a line list. -/
def consHead (c : Char) : List (List Char) → List (List Char)
  | [] => [[c]]
  | l :: ls => (c :: l) :: ls

/-- `markdown.split(/\r?\n/)`: split at each `\n`, also consuming a `\r`
standing immediately before the `\n`.  A lone `\r` is ordinary text. -/
def splitLines : List Char → List (List Char)
  | [] => [[]]
  | c :: rest =>
    if c = '\n' then [] :: splitLines rest
    else if c = '\r' then
      match rest with
      | '\n' :: rest2 => [] :: splitLines rest2
      | other => consHead c (splitLines other)
    else consHead c (splitLines rest)

/-- Case-insensitive literal prefix match; returns the remainder after the
prefix.  Used for the `(?:Title|QCM):` part of the title regex. -/
def stripCI (pat : List Char) (s : List Char) : Option (List Char) :=
  match pat, s with
  | [], rest => some rest
  | _ :: _, [] => none
  | p :: ps, c :: cs => if c.toLower = p.toLower then stripCI ps cs else none

/-- The test/replace of `/^#\s*(?:Title|QCM):/i` on an already-trimmed line:
`some rem` when the line matches, where `rem` is what `line.replace(re, '')`
leaves.  `\s*` is greedy but its characters are disjoint from `T`/`Q`, so
dropping all whitespace is exact. -/
def matchTitle (line : List Char) : Option (List Char) :=
  match line with
  | '#' :: rest =>
    let r := rest.dropWhile isJsSpace
    match stripCI ['T', 'i', 't', 'l', 'e', ':'] r with
    | some rem => some rem
    | none => stripCI ['Q', 'C', 'M', ':'] r
  | _ => none

/-- `line.match(/^##\s*Q:\s*(.+)$/)` on an already-trimmed line: `some cap`
with `cap` the first capture group.  On a trimmed line the region after
`Q:` is empty or ends in a non-space character, so the greedy `\s*`
followed by `(.+)$` captures exactly the remainder with its leading
whitespace dropped, provided it is non-empty and free of line
terminators (which `.` cannot match). -/
def matchQuestion (line : List Char) : Option (List Char) :=
  match line with
  | '#' :: '#' :: rest =>
    match rest.dropWhile isJsSpace with
    | 'Q' :: ':' :: r2 =>
      let cap := r2.dropWhile isJsSpace
      if cap ≠ [] ∧ cap.all isDotChar then some cap else none
    | _ => none
  | _ => none

/-- `line.match(/^- \[([ xX])\]\s*(.+)$/)` on an already-trimmed line:
`some (m, cap)` with `m` the bracket character and `cap` the text capture
(same `\s*(.+)$` argument as for the question regex). -/
def matchAnswer (line : List Char) : Option (Char × List Char) :=
  match line with
  | '-' :: ' ' :: '[' :: m :: ']' :: rest =>
    if m = ' ' ∨ m = 'x' ∨ m = 'X' then
      let cap := rest.dropWhile isJsSpace
      if cap ≠ [] ∧ cap.all isDotChar then some (m, cap) else none
    else none
  | _ => none

/-- Value of a most-significant-digit-first digit string, as `parseInt`
computes it on a string of decimal digits. -/
def digitsToNat (ds : List Char) : Nat :=
  ds.foldl (fun n c => n * 10 + (c.toNat - 48)) 0

/-- Score extraction applied to an already-trimmed title text:
`text.match(/\[(\d+)\]\s*$/)` followed, on success, by
`text.replace(/\[\d+\]\s*$/, '').trim()` and `parseInt` of the digits.
On a trimmed text the `\s*$` part is empty, so the match exists exactly
when the text ends in `[` digits `]`; the result is
`(score, remaining title)`, defaulting to `(1, text)` with the source's
`let score = 1`. -/
def extractScore (text : List Char) : Nat × List Char :=
  match text.reverse with
  | ']' :: rest =>
    let ds := rest.takeWhile isDigit
    if ds ≠ [] ∧ (rest.drop ds.length).head? = some '[' then
      (digitsToNat ds.reverse, trim ((rest.drop ds.length).tail.reverse))
    else (1, text)
  | _ => (1, text)

/-- `Answer` of types.ts. -/
structure Answer where
  text : List Char
  correct : Bool
deriving DecidableEq, Repr

/-- `Question` of types.ts. -/
structure Question where
  title : List Char
  score : Nat
  answers : List Answer
  multipleAnswers : Bool
deriving DecidableEq, Repr

/-- `QCM` of types.ts: `title?` is an optional field. -/
structure QCM where
  title : Option (List Char)
  questions : List Question
deriving DecidableEq, Repr

/-- `ParseOptions` of types.ts; an absent field is falsy, modelled `false`. -/
structure ParseOptions where
  enforceSingle : Bool := false
  requireAtLeastOneCorrect : Bool := false
deriving DecidableEq, Repr

/-- The data carried by each `throw new Error(...)` of the source, one
constructor per distinct message template. -/
inductive PErr where
  | answerWithoutQuestion (lineNo : Nat) (rawLine : List Char)
  | unrecognized (lineNo : Nat) (rawLine : List Char)
  | noAnswers (pos : Nat) (title : List Char)
  | malformedItem (idx : Nat)
  | malformedAnswer (qIdx aIdx : Nat)
  | noCorrect (pos : Nat) (title : List Char)
  | tooMany (pos : Nat) (title : List Char) (count : Nat)
deriving DecidableEq, Repr

/-- Number of answers with `correct = true`:
`q.answers.filter(a => a.correct).length`. -/
def countCorrect (answers : List Answer) : Nat :=
  (answers.filter (fun a => a.correct)).length

/-- Loop body of `finalizeQuestions` (utils.ts), carried out over the list
with the running 0-based index. -/
def finalizeGo (options : ParseOptions) : Nat → List Question → Except PErr (List Question)
  | _, [] => .ok []
  | idx, q :: rest =>
    let correctCount := countCorrect q.answers
    if options.requireAtLeastOneCorrect ∧ correctCount = 0 then
      .error (.noCorrect (idx + 1) q.title)
    else if options.enforceSingle ∧ 1 < correctCount then
      .error (.tooMany (idx + 1) q.title correctCount)
    else
      match finalizeGo options (idx + 1) rest with
      | .error e => .error e
      | .ok rest' => .ok ({ q with multipleAnswers := decide (1 < correctCount) } :: rest')

/-- `finalizeQuestions` of utils.ts (src/unnamed/part_001). -/
def finalizeQuestions (questions : List Question) (options : ParseOptions) :
    Except PErr (List Question) :=
  finalizeGo options 0 questions

/-- JavaScript truthiness of the `qcm.title` field: `undefined` and the
empty string are falsy. -/
def titleTruthy (t : Option (List Char)) : Bool :=
  match t with
  | none => false
  | some s => s ≠ []

/-- Mutable state of the `forEach` loop in `parseQCM`: the questionnaire
title set so far, the closed questions pushed to `qcm.questions`, and the
`currentQuestion` variable. -/
structure PState where
  title : Option (List Char)
  questions : List Question
  current : Option Question
deriving DecidableEq, Repr

/-- `'<!--'` -/
def commentStart : List Char := ['<', '!', '-', '-']

/-- One iteration of the `lines.forEach((rawLine, idx) => ...)` body of
`parseQCM`: rules 1-5 in source order (global title with the `!qcm.title`
truthiness guard, question header, answer line, blank/comment, otherwise
an error carrying the 1-based line number and the raw line). -/
def processLine (st : PState) (idx : Nat) (rawLine : List Char) : Except PErr PState :=
  let line := trim rawLine
  if titleTruthy st.title = false ∧ (matchTitle line).isSome then
    .ok { st with title := some (trim ((matchTitle line).getD [])) }
  else
    match matchQuestion line with
    | some cap =>
      let sc := extractScore (trim cap)
      .ok { st with
            questions := st.questions ++ st.current.toList,
            current := some ⟨sc.2, sc.1, [], false⟩ }
    | none =>
      match matchAnswer line with
      | some (m, cap) =>
        match st.current with
        | none => .error (.answerWithoutQuestion (idx + 1) rawLine)
        | some cq =>
          .ok { st with
                current := some { cq with
                  answers := cq.answers ++ [⟨trim cap, m.toLower = 'x'⟩] } }
      | none =>
        if line = [] ∨ commentStart.isPrefixOf line then .ok st
        else .error (.unrecognized (idx + 1) rawLine)

/-- The whole `forEach` loop, threading the exception. -/
def runLines : Nat → PState → List (List Char) → Except PErr PState
  | _, st, [] => .ok st
  | idx, st, l :: ls =>
    match processLine st idx l with
    | .error e => .error e
    | .ok st' => runLines (idx + 1) st' ls

/-- The post-loop `qcm.questions.forEach((q, i) => ...)` check that every
question has at least one answer, with the running 0-based index. -/
def checkNoAnswers : Nat → List Question → Except PErr Unit
  | _, [] => .ok ()
  | idx, q :: rest =>
    if q.answers = [] then .error (.noAnswers (idx + 1) q.title)
    else checkNoAnswers (idx + 1) rest

/-- `parseQCM` of index.ts. -/
def parseQCM (markdown : List Char) (options : ParseOptions) : Except PErr QCM :=
  match runLines 0 ⟨none, [], none⟩ (splitLines markdown) with
  | .error e => .error e
  | .ok st =>
    let qs := st.questions ++ st.current.toList
    match checkNoAnswers 0 qs with
    | .error e => .error e
    | .ok _ =>
      match finalizeQuestions qs options with
      | .error e => .error e
      | .ok qs' => .ok ⟨st.title, qs'⟩

/-- The runtime value of the `correct` property of a raw answer record
handed to `parseQCMFromArray`: a boolean, `null`, absent (`undefined`),
or any other value. -/
inductive RawCorrect where
  | rbool (b : Bool)
  | rnull
  | rundef
  | rother
deriving DecidableEq, Repr

/-- A raw answer record: `text` is `some` string or (`none`) a non-string
value. -/
structure RawAnswer where
  text : Option (List Char)
  correct : RawCorrect
deriving DecidableEq, Repr

/-- A raw item of the array handed to `parseQCMFromArray`: `title` is
`some` string or a non-string value, `answers` is `some` array or a
non-array value. -/
structure RawItem where
  title : Option (List Char)
  answers : Option (List RawAnswer)
deriving DecidableEq, Repr

/-- Body of the `item.answers.map((ans, aidx) => ...)` in
`parseQCMFromArray`: the shape check
`typeof ans.text !== 'string' || !([true, false, null].includes(ans.correct))`
(note `includes(undefined)` is false, so an absent `correct` fails the
check) and on success `{ text: ans.text.trim(), correct: ans.correct === true }`. -/
def convAnswer (qIdx aIdx : Nat) (a : RawAnswer) : Except PErr Answer :=
  match a.text, a.correct with
  | some t, .rbool b => .ok ⟨trim t, b⟩
  | some t, .rnull => .ok ⟨trim t, false⟩
  | _, _ => .error (.malformedAnswer (qIdx + 1) (aIdx + 1))

/-- The `map` over the answers of one item, first exception wins. -/
def convAnswers (qIdx : Nat) : Nat → List RawAnswer → Except PErr (List Answer)
  | _, [] => .ok []
  | aIdx, a :: rest =>
    match convAnswer qIdx aIdx a with
    | .error e => .error e
    | .ok r =>
      match convAnswers qIdx (aIdx + 1) rest with
      | .error e => .error e
      | .ok rs => .ok (r :: rs)

/-- One iteration of the `rawArr.forEach((item, idx) => ...)` body of
`parseQCMFromArray`: item shape check, score extraction from the trimmed
title, answer mapping, and the pushed question skeleton with
`multipleAnswers: false`. -/
def convItem (idx : Nat) (item : RawItem) : Except PErr Question :=
  match item.title, item.answers with
  | some t, some ans =>
    let sc := extractScore (trim t)
    match convAnswers idx 0 ans with
    | .error e => .error e
    | .ok rs => .ok ⟨sc.2, sc.1, rs, false⟩
  | _, _ => .error (.malformedItem (idx + 1))

/-- The whole `forEach` over the raw items. -/
def convItems : Nat → List RawItem → Except PErr (List Question)
  | _, [] => .ok []
  | idx, item :: rest =>
    match convItem idx item with
    | .error e => .error e
    | .ok q =>
      match convItems (idx + 1) rest with
      | .error e => .error e
      | .ok qs => .ok (q :: qs)

/-- `parseQCMFromArray` of index.ts.  The `qcm.title` field is never set. -/
def parseQCMFromArray (rawArr : List RawItem) (options : ParseOptions) : Except PErr QCM :=
  match convItems 0 rawArr with
  | .error e => .error e
  | .ok qs =>
    match finalizeQuestions qs options with
    | .error e => .error e
    | .ok qs' => .ok ⟨none, qs'⟩

/-- Fuel-based decimal rendering (most significant digit first). -/
def natToCharsCore : Nat → Nat → List Char
  | 0, _ => []
  | fuel + 1, n =>
    if n < 10 then [Nat.digitChar n]
    else natToCharsCore fuel (n / 10) ++ [Nat.digitChar (n % 10)]

/-- Decimal string of a `Nat`, as JavaScript template interpolation
`${score}` renders an integer number. -/
def natToChars (n : Nat) : List Char := natToCharsCore (n + 1) n

/-- `'# Title: '` -/
def titleTag : List Char := ['#', ' ', 'T', 'i', 't', 'l', 'e', ':', ' ']

/-- The question header line emitted by `jsonToMd`:
`## Q: ${question.title.trim()}` plus ` [${question.score}]` (the
`typeof question.score === 'number'` guard always holds for the modelled
numeric score). -/
def headerOf (q : Question) : List Char :=
  ['#', '#', ' ', 'Q', ':', ' '] ++ trim q.title ++ [' ', '['] ++ natToChars q.score ++ [']']

/-- An answer line emitted by `jsonToMd`: `- ${mark} ${ans.text.trim()}`. -/
def answerLine (a : Answer) : List Char :=
  ['-', ' '] ++ (if a.correct then ['[', 'x', ']'] else ['[', ' ', ']']) ++
  [' '] ++ trim a.text

/-- The lines pushed for one question: header, answers, blank separator. -/
def questionLines (q : Question) : List (List Char) :=
  headerOf q :: (q.answers.map answerLine ++ [[]])

/-- The full `lines` array built by `jsonToMd` before joining. -/
def mdLines (qcm : QCM) : List (List Char) :=
  (if titleTruthy qcm.title then
    [titleTag ++ trim (qcm.title.getD []), []]
  else []) ++ (qcm.questions.map questionLines).flatten

/-- `lines.join(sep)`. -/
def joinWith (sep : List Char) : List (List Char) → List Char
  | [] => []
  | [l] => l
  | l :: ls => l ++ sep ++ joinWith sep ls

/-- `jsonToMd` of index.ts: `lines.join('\n').trimEnd() + '\n'`. -/
def jsonToMd (qcm : QCM) : List Char :=
  trimEndL (joinWith ['\n'] (mdLines qcm)) ++ ['\n']

deriving instance DecidableEq for Except

/-! ### Character-class lemmas -/

theorem isJsSpace_false_of_range {c : Char} (h1 : 33 ≤ c.toNat) (h2 : c.toNat ≤ 159) :
    isJsSpace c = false := by
  unfold isJsSpace
  simp only [Bool.or_eq_false_iff, beq_eq_false_iff_ne, ne_eq, Bool.and_eq_false_iff,
    decide_eq_false_iff_not, not_le]
  omega

theorem isDotChar_true_of_range {c : Char} (h1 : 14 ≤ c.toNat) (h2 : c.toNat ≤ 8231) :
    isDotChar c = true := by
  unfold isDotChar
  simp only [Bool.not_eq_true', Bool.or_eq_false_iff, beq_eq_false_iff_ne, ne_eq]
  omega

theorem isDigit_range {c : Char} (h : isDigit c = true) : 48 ≤ c.toNat ∧ c.toNat ≤ 57 := by
  unfold isDigit at h
  simp only [Bool.and_eq_true, decide_eq_true_eq] at h
  exact h

theorem isDigit_not_space {c : Char} (h : isDigit c = true) : isJsSpace c = false :=
  isJsSpace_false_of_range (le_trans (by norm_num) (isDigit_range h).1)
    (le_trans (isDigit_range h).2 (by norm_num))

theorem isDigit_isDotChar {c : Char} (h : isDigit c = true) : isDotChar c = true :=
  isDotChar_true_of_range (le_trans (by norm_num) (isDigit_range h).1)
    (le_trans (isDigit_range h).2 (by norm_num))

theorem isDigit_ne_of_toNat {c d : Char} (h : isDigit c = true) (hd : ¬(48 ≤ d.toNat ∧ d.toNat ≤ 57)) :
    c ≠ d := by
  intro he
  subst he
  exact hd (isDigit_range h)

/-! ### Trim lemmas -/

theorem trimLeft_cons_of_space {c : Char} {s : List Char} (h : isJsSpace c = true) :
    trimLeft (c :: s) = trimLeft s := by
  simp [trimLeft, List.dropWhile_cons, h]

theorem trimLeft_cons_of_not {c : Char} {s : List Char} (h : isJsSpace c = false) :
    trimLeft (c :: s) = c :: s := by
  simp [trimLeft, List.dropWhile_cons, h]

theorem trimLeft_eq_self {s : List Char}
    (h : ∀ c, s.head? = some c → isJsSpace c = false) : trimLeft s = s := by
  cases s with
  | nil => rfl
  | cons c t => exact trimLeft_cons_of_not (h c rfl)

theorem trimEndL_eq_self {s : List Char}
    (h : ∀ c, s.getLast? = some c → isJsSpace c = false) : trimEndL s = s := by
  unfold trimEndL
  rw [show s.reverse.dropWhile isJsSpace = trimLeft s.reverse from rfl,
    trimLeft_eq_self (by intro c hc; exact h c (by rwa [List.head?_reverse] at hc))]
  exact s.reverse_reverse

theorem trim_eq_self {s : List Char}
    (hh : ∀ c, s.head? = some c → isJsSpace c = false)
    (hl : ∀ c, s.getLast? = some c → isJsSpace c = false) : trim s = s := by
  unfold trim
  rw [trimLeft_eq_self hh, trimEndL_eq_self hl]

theorem trimLeft_length_le (s : List Char) : (trimLeft s).length ≤ s.length :=
  (List.dropWhile_suffix isJsSpace).length_le

theorem trimEndL_length_le (s : List Char) : (trimEndL s).length ≤ s.length := by
  unfold trimEndL
  rw [List.length_reverse]
  calc (s.reverse.dropWhile isJsSpace).length ≤ s.reverse.length :=
        (List.dropWhile_suffix isJsSpace).length_le
    _ = s.length := s.length_reverse

theorem trim_length_le (s : List Char) : (trim s).length ≤ s.length :=
  le_trans (trimEndL_length_le _) (trimLeft_length_le s)

theorem trimLeft_eq_self_of_trim {s : List Char} (h : trim s = s) : trimLeft s = s := by
  have h1 : (trim s).length ≤ (trimLeft s).length := trimEndL_length_le _
  have h2 : (trimLeft s).length ≤ s.length := trimLeft_length_le s
  rw [h] at h1
  exact (List.dropWhile_suffix isJsSpace).eq_of_length (le_antisymm h2 h1)

theorem trim_head_not_space {s : List Char} (h : trim s = s) :
    ∀ c, s.head? = some c → isJsSpace c = false := by
  intro c hc
  have hL := trimLeft_eq_self_of_trim h
  cases s with
  | nil => simp at hc
  | cons a t =>
    simp only [List.head?_cons, Option.some.injEq] at hc
    subst hc
    by_contra hsp
    rw [trimLeft_cons_of_space (Bool.not_eq_false _ ▸ hsp)] at hL
    have := trimLeft_length_le t
    rw [hL] at this
    simp at this

theorem trimEndL_eq_self_of_trim {s : List Char} (h : trim s = s) : trimEndL s = s := by
  conv_lhs => rw [← trimLeft_eq_self_of_trim h]
  exact h

theorem trim_last_not_space {s : List Char} (h : trim s = s) :
    ∀ c, s.getLast? = some c → isJsSpace c = false := by
  intro c hc
  have hE : s.reverse.dropWhile isJsSpace = s.reverse := by
    have := trimEndL_eq_self_of_trim h
    unfold trimEndL at this
    have h2 := congrArg List.reverse this
    rwa [List.reverse_reverse] at h2
  rw [← List.head?_reverse] at hc
  cases hr : s.reverse with
  | nil => rw [hr] at hc; simp at hc
  | cons a t =>
    rw [hr] at hc hE
    simp only [List.head?_cons, Option.some.injEq] at hc
    subst hc
    by_contra hsp
    rw [List.dropWhile_cons_of_pos (Bool.not_eq_false _ ▸ hsp)] at hE
    have := (List.dropWhile_suffix (l := t) isJsSpace).length_le
    rw [hE] at this
    simp at this

theorem trimLeft_head_not_space :
    ∀ {s : List Char} {c : Char}, (trimLeft s).head? = some c → isJsSpace c = false := by
  intro s
  induction s with
  | nil => intro c hc; simp [trimLeft] at hc
  | cons a t ih =>
    intro c hc
    cases ha : isJsSpace a with
    | true => rw [trimLeft_cons_of_space ha] at hc; exact ih hc
    | false =>
      rw [trimLeft_cons_of_not ha] at hc
      simp only [List.head?_cons, Option.some.injEq] at hc
      rwa [← hc]

theorem trimEndL_last_not_space {s : List Char} {c : Char}
    (hc : (trimEndL s).getLast? = some c) : isJsSpace c = false := by
  unfold trimEndL at hc
  rw [← List.head?_reverse, List.reverse_reverse] at hc
  exact trimLeft_head_not_space (s := s.reverse) hc

theorem trimEndL_prefix (s : List Char) : trimEndL s <+: s := by
  have h := List.dropWhile_suffix (l := s.reverse) isJsSpace
  have h2 := List.reverse_prefix.mpr h
  rwa [List.reverse_reverse] at h2

theorem trim_head_eq {s : List Char} (h : trim s ≠ []) :
    (trim s).head? = (trimLeft s).head? := by
  obtain ⟨t, ht⟩ := trimEndL_prefix (trimLeft s)
  cases he : trimEndL (trimLeft s) with
  | nil => exact absurd he h
  | cons a r =>
    show (trimEndL (trimLeft s)).head? = (trimLeft s).head?
    rw [he, ← ht, he]
    simp

theorem trim_cons_space {c : Char} {s : List Char} (h : isJsSpace c = true) :
    trim (c :: s) = trim s := by
  unfold trim
  rw [trimLeft_cons_of_space h]

theorem trimEndL_snoc_space {c : Char} {s : List Char} (h : isJsSpace c = true) :
    trimEndL (s ++ [c]) = trimEndL s := by
  unfold trimEndL
  rw [List.reverse_append]
  simp only [List.reverse_cons, List.reverse_nil, List.nil_append, List.singleton_append]
  rw [List.dropWhile_cons_of_pos h]

theorem trimLeft_append_left {s r : List Char}
    (hs : s ≠ []) (hh : ∀ c, s.head? = some c → isJsSpace c = false) :
    trimLeft (s ++ r) = s ++ r := by
  cases s with
  | nil => exact absurd rfl hs
  | cons a t => exact trimLeft_cons_of_not (hh a rfl)

theorem trim_snoc_space {c : Char} {s : List Char} (hc : isJsSpace c = true)
    (hs : trim s = s) (hne : s ≠ []) : trim (s ++ [c]) = s := by
  unfold trim
  rw [trimLeft_append_left hne (trim_head_not_space hs), trimEndL_snoc_space hc]
  exact trimEndL_eq_self_of_trim hs

theorem trimEndL_ne_nil_iff {s : List Char} :
    trimEndL s ≠ [] ↔ s.reverse.dropWhile isJsSpace ≠ [] := by
  unfold trimEndL
  constructor
  · intro h hc; rw [hc] at h; exact h rfl
  · intro h hc
    have := congrArg List.reverse hc
    rw [List.reverse_reverse] at this
    exact h this

theorem trimEndL_append_right {a b : List Char} (hb : trimEndL b ≠ []) :
    trimEndL (a ++ b) = a ++ trimEndL b := by
  unfold trimEndL
  rw [List.reverse_append, List.dropWhile_append]
  have hne : b.reverse.dropWhile isJsSpace ≠ [] := trimEndL_ne_nil_iff.mp hb
  rw [if_neg (by simpa [List.isEmpty_iff] using hne), List.reverse_append,
    List.reverse_reverse]

theorem trimEndL_append_left {a b : List Char} (hne : a ≠ [])
    (ha : ∀ c, a.getLast? = some c → isJsSpace c = false) :
    trimEndL (a ++ b) = a ++ trimEndL b := by
  by_cases hb : trimEndL b = []
  · have hbe : b.reverse.dropWhile isJsSpace = [] := by
      by_contra hc
      exact (trimEndL_ne_nil_iff.mpr hc) hb
    rw [hb, List.append_nil]
    unfold trimEndL
    rw [List.reverse_append, List.dropWhile_append, if_pos (by simp [List.isEmpty_iff, hbe])]
    cases har : a.reverse with
    | nil => simp at har; exact absurd har hne
    | cons x xs =>
      have hx : a.getLast? = some x := by rw [← List.head?_reverse, har]; rfl
      rw [List.dropWhile_cons_of_neg (by simp [ha x hx]), ← har, List.reverse_reverse]
  · exact trimEndL_append_right hb

theorem trim_trim (s : List Char) : trim (trim s) = trim s := by
  by_cases h : trim s = []
  · rw [h]; rfl
  · refine trim_eq_self ?_ ?_
    · intro c hc
      rw [trim_head_eq h] at hc
      exact trimLeft_head_not_space hc
    · intro c hc
      exact trimEndL_last_not_space (s := trimLeft s) hc

/-! ### splitLines and joinWith lemmas -/

theorem splitLines_cons_other {c : Char} {rest : List Char}
    (h1 : c ≠ '\n') (h2 : c ≠ '\r') :
    splitLines (c :: rest) = consHead c (splitLines rest) := by
  conv_lhs => unfold splitLines
  rw [if_neg h1, if_neg h2]

theorem splitLines_cons_nl (rest : List Char) :
    splitLines ('\n' :: rest) = [] :: splitLines rest := by
  conv_lhs => unfold splitLines
  rw [if_pos rfl]

theorem splitLines_cons_crlf (rest : List Char) :
    splitLines ('\r' :: '\n' :: rest) = [] :: splitLines rest := by
  conv_lhs => unfold splitLines
  rw [if_neg (by decide), if_pos rfl]
  rfl

theorem consHead_ne_nil (c : Char) (ls : List (List Char)) : consHead c ls ≠ [] := by
  cases ls <;> simp [consHead]

theorem splitLines_append_nl {l rest : List Char} (h1 : '\n' ∉ l) (h2 : '\r' ∉ l) :
    splitLines (l ++ '\n' :: rest) = l :: splitLines rest := by
  induction l with
  | nil => exact splitLines_cons_nl rest
  | cons c t ih =>
    have hc1 : c ≠ '\n' := fun h => h1 (h ▸ List.mem_cons_self c t)
    have hc2 : c ≠ '\r' := fun h => h2 (h ▸ List.mem_cons_self c t)
    rw [List.cons_append, splitLines_cons_other hc1 hc2,
      ih (fun h => h1 (List.mem_cons_of_mem c h)) (fun h => h2 (List.mem_cons_of_mem c h))]
    rfl

theorem splitLines_append_crlf {l rest : List Char} (h1 : '\n' ∉ l) (h2 : '\r' ∉ l) :
    splitLines (l ++ '\r' :: '\n' :: rest) = l :: splitLines rest := by
  induction l with
  | nil => exact splitLines_cons_crlf rest
  | cons c t ih =>
    have hc1 : c ≠ '\n' := fun h => h1 (h ▸ List.mem_cons_self c t)
    have hc2 : c ≠ '\r' := fun h => h2 (h ▸ List.mem_cons_self c t)
    rw [List.cons_append, splitLines_cons_other hc1 hc2,
      ih (fun h => h1 (List.mem_cons_of_mem c h)) (fun h => h2 (List.mem_cons_of_mem c h))]
    rfl

theorem joinWith_cons_cons (sep : List Char) (a b : List Char) (ls : List (List Char)) :
    joinWith sep (a :: b :: ls) = a ++ sep ++ joinWith sep (b :: ls) := rfl

theorem joinWith_singleton (sep : List Char) (a : List Char) : joinWith sep [a] = a := rfl

theorem splitLines_of_clean {l : List Char} (h1 : '\n' ∉ l) (h2 : '\r' ∉ l) :
    splitLines l = [l] := by
  induction l with
  | nil => rfl
  | cons c t ih =>
    have hc1 : c ≠ '\n' := fun h => h1 (h ▸ List.mem_cons_self c t)
    have hc2 : c ≠ '\r' := fun h => h2 (h ▸ List.mem_cons_self c t)
    rw [splitLines_cons_other hc1 hc2,
      ih (fun h => h1 (List.mem_cons_of_mem c h)) (fun h => h2 (List.mem_cons_of_mem c h))]
    rfl

theorem splitLines_joinWith_lf {ls : List (List Char)} (hne : ls ≠ [])
    (h : ∀ l ∈ ls, '\n' ∉ l ∧ '\r' ∉ l) :
    splitLines (joinWith ['\n'] ls) = ls := by
  induction ls with
  | nil => exact absurd rfl hne
  | cons a t ih =>
    cases t with
    | nil =>
      rw [joinWith_singleton]
      exact splitLines_of_clean (h a (List.mem_cons_self a _)).1 (h a (List.mem_cons_self a _)).2
    | cons b t' =>
      rw [joinWith_cons_cons, List.append_assoc, List.singleton_append,
        splitLines_append_nl (h a (List.mem_cons_self a _)).1 (h a (List.mem_cons_self a _)).2,
        ih (by simp) (fun l hl => h l (List.mem_cons_of_mem a hl))]

theorem splitLines_joinWith_crlf {ls : List (List Char)} (hne : ls ≠ [])
    (h : ∀ l ∈ ls, '\n' ∉ l ∧ '\r' ∉ l) :
    splitLines (joinWith ['\r', '\n'] ls) = ls := by
  induction ls with
  | nil => exact absurd rfl hne
  | cons a t ih =>
    cases t with
    | nil =>
      rw [joinWith_singleton]
      exact splitLines_of_clean (h a (List.mem_cons_self a _)).1 (h a (List.mem_cons_self a _)).2
    | cons b t' =>
      rw [joinWith_cons_cons, List.append_assoc,
        show ['\r', '\n'] ++ joinWith ['\r', '\n'] (b :: t') =
          '\r' :: '\n' :: joinWith ['\r', '\n'] (b :: t') from rfl,
        splitLines_append_crlf (h a (List.mem_cons_self a _)).1 (h a (List.mem_cons_self a _)).2,
        ih (by simp) (fun l hl => h l (List.mem_cons_of_mem a hl))]

/-! ### natToChars and digitsToNat lemmas -/

theorem digitChar_isDigit {d : Nat} (h : d < 10) : isDigit (Nat.digitChar d) = true := by
  interval_cases d <;> decide

theorem digitChar_toNat {d : Nat} (h : d < 10) : (Nat.digitChar d).toNat = 48 + d := by
  interval_cases d <;> decide

theorem natToCharsCore_eq : ∀ (fuel n : Nat), n < fuel →
    natToCharsCore fuel n =
      if n = 0 then ['0'] else (Nat.digits 10 n).reverse.map Nat.digitChar := by
  intro fuel
  induction fuel with
  | zero => intro n hn; exact absurd hn (Nat.not_lt_zero n)
  | succ fuel ih =>
    intro n hn
    unfold natToCharsCore
    by_cases h10 : n < 10
    · rw [if_pos h10]
      by_cases h0 : n = 0
      · rw [if_pos h0, h0]
        rfl
      · rw [if_neg h0]
        rw [Nat.digits_def' (by norm_num : (1:Nat) < 10) (Nat.pos_of_ne_zero h0),
          Nat.mod_eq_of_lt h10, Nat.div_eq_of_lt h10, Nat.digits_zero]
        rfl
    · rw [if_neg h10]
      have h0 : n ≠ 0 := by omega
      rw [if_neg h0]
      have hdivlt : n / 10 < fuel :=
        lt_of_lt_of_le (Nat.div_lt_self (Nat.pos_of_ne_zero h0) (by norm_num))
          (Nat.lt_succ_iff.mp hn)
      have hdiv0 : n / 10 ≠ 0 := by
        intro hc
        rw [Nat.div_eq_zero_iff (by norm_num)] at hc
        exact h10 hc
      rw [ih (n / 10) hdivlt, if_neg hdiv0,
        Nat.digits_def' (by norm_num : (1:Nat) < 10) (Nat.pos_of_ne_zero h0)]
      simp [List.reverse_cons]

theorem natToChars_eq (n : Nat) :
    natToChars n = if n = 0 then ['0'] else (Nat.digits 10 n).reverse.map Nat.digitChar :=
  natToCharsCore_eq (n + 1) n (Nat.lt_succ_self n)

theorem natToChars_ne_nil (n : Nat) : natToChars n ≠ [] := by
  rw [natToChars_eq]
  split
  · simp
  · rename_i h
    intro hc
    rw [List.map_eq_nil_iff, List.reverse_eq_nil_iff] at hc
    exact Nat.digits_ne_nil_iff_ne_zero.mpr h hc

theorem natToChars_all_digit {n : Nat} : ∀ c ∈ natToChars n, isDigit c = true := by
  rw [natToChars_eq]
  split
  · intro c hc
    simp only [List.mem_singleton] at hc
    subst hc
    decide
  · intro c hc
    simp only [List.mem_map, List.mem_reverse] at hc
    obtain ⟨d, hd, hdc⟩ := hc
    subst hdc
    exact digitChar_isDigit (Nat.digits_lt_base (by norm_num) hd)

theorem digitsToNat_append (x : List Char) (c : Char) :
    digitsToNat (x ++ [c]) = digitsToNat x * 10 + (c.toNat - 48) := by
  unfold digitsToNat
  rw [List.foldl_append]
  rfl

theorem digitsToNat_rev_map (ds : List Nat) (h : ∀ d ∈ ds, d < 10) :
    digitsToNat (ds.reverse.map Nat.digitChar) = Nat.ofDigits 10 ds := by
  induction ds with
  | nil => rfl
  | cons d t ih =>
    rw [List.reverse_cons, List.map_append, List.map_singleton, digitsToNat_append,
      ih (fun x hx => h x (List.mem_cons_of_mem d hx)), Nat.ofDigits_cons,
      digitChar_toNat (h d (List.mem_cons_self d t))]
    omega

theorem digitsToNat_natToChars (n : Nat) : digitsToNat (natToChars n) = n := by
  rw [natToChars_eq]
  split
  · rename_i h; rw [h]; rfl
  · rw [digitsToNat_rev_map (Nat.digits 10 n) (fun d hd => Nat.digits_lt_base (by norm_num) hd),
      Nat.ofDigits_digits]

/-! ### extractScore lemmas -/

theorem takeWhile_digits_append (ds : List Char) (h : ∀ c ∈ ds, isDigit c = true)
    (r : List Char) :
    (ds ++ '[' :: r).takeWhile isDigit = ds := by
  rw [List.takeWhile_append_of_pos h, List.takeWhile_cons_of_neg (by decide), List.append_nil]

/-- The trailing `[n]` of a serialized header is recovered exactly:
for any `t`, `extractScore (t ++ "[" ++ natToChars n ++ "]") = (n, trim t)`. -/
theorem extractScore_append_bracket (t : List Char) (n : Nat) :
    extractScore (t ++ '[' :: (natToChars n ++ [']'])) = (n, trim t) := by
  unfold extractScore
  have hrev : (t ++ '[' :: (natToChars n ++ [']'])).reverse =
      ']' :: ((natToChars n).reverse ++ '[' :: t.reverse) := by
    simp [List.reverse_append]
  rw [hrev]
  have hall : ∀ c ∈ (natToChars n).reverse, isDigit c = true := by
    intro c hc
    exact natToChars_all_digit c (List.mem_reverse.mp hc)
  have htw : ((natToChars n).reverse ++ '[' :: t.reverse).takeWhile isDigit =
      (natToChars n).reverse := takeWhile_digits_append _ hall _
  simp only [htw]
  rw [List.drop_left' rfl]
  rw [if_pos ⟨by simpa using natToChars_ne_nil n, rfl⟩]
  rw [List.tail_cons, List.reverse_reverse, List.reverse_reverse, digitsToNat_natToChars]

/-- Specification helper (not part of the source): decides whether a trimmed
title text ends in a bracketed run of digits, i.e. whether the score regex
`/\[(\d+)\]\s*$/` matches it. -/
def endsWithScoreB (text : List Char) : Bool :=
  match text.reverse with
  | ']' :: rest =>
    decide (rest.takeWhile isDigit ≠ []) &&
    ((rest.drop (rest.takeWhile isDigit).length).head? == some '[')
  | _ => false

theorem extractScore_of_no_bracket {text : List Char} (h : endsWithScoreB text = false) :
    extractScore text = (1, text) := by
  unfold endsWithScoreB at h
  unfold extractScore
  cases hr : text.reverse with
  | nil => rfl
  | cons a rest =>
    rw [hr] at h
    by_cases ha : a = ']'
    · subst ha
      simp only [Bool.and_eq_false_iff, decide_eq_false_iff_not, not_not,
        beq_eq_false_iff_ne, ne_eq] at h
      simp only []
      rw [if_neg]
      rintro ⟨h1, h2⟩
      rcases h with h | h
      · exact h1 h
      · exact h h2
    · simp only []
      split
      · rename_i heq
        rw [List.cons_eq_cons] at heq
        exact absurd heq.1 ha
      · rfl

/-! ### Well-formed free-text fields -/

/-- A free-text field (questionnaire title, question title, answer text)
that survives the serialize-parse round trip: non-empty, already trimmed,
and free of the four line-terminator characters. -/
def goodText (s : List Char) : Prop :=
  s ≠ [] ∧ trim s = s ∧ ∀ c ∈ s, isDotChar c = true

instance (s : List Char) : Decidable (goodText s) := by
  unfold goodText
  infer_instance

theorem goodText_no_nl {s : List Char} (h : goodText s) : '\n' ∉ s := by
  intro hm
  have := h.2.2 '\n' hm
  simp [isDotChar] at this

theorem goodText_no_cr {s : List Char} (h : goodText s) : '\r' ∉ s := by
  intro hm
  have := h.2.2 '\r' hm
  simp [isDotChar] at this

theorem goodText_head {s : List Char} (h : goodText s) :
    ∀ c, s.head? = some c → isJsSpace c = false := trim_head_not_space h.2.1

theorem goodText_last {s : List Char} (h : goodText s) :
    ∀ c, s.getLast? = some c → isJsSpace c = false := trim_last_not_space h.2.1

/-! ### Behaviour of the line classifiers on serialized lines -/

theorem trim_titleLine {t : List Char} (ht : goodText t) :
    trim (titleTag ++ t) = titleTag ++ t := by
  refine trim_eq_self ?_ ?_
  · intro c hc
    simp only [titleTag, List.cons_append, List.head?_cons, Option.some.injEq] at hc
    subst hc
    decide
  · intro c hc
    rw [List.getLast?_append] at hc
    cases hgt : t.getLast? with
    | none => exact absurd (List.getLast?_eq_none_iff.mp hgt) ht.1
    | some d =>
      rw [hgt] at hc
      simp only [Option.or_some, Option.some.injEq] at hc
      subst hc
      exact goodText_last ht d hgt

theorem matchTitle_titleLine (t : List Char) :
    matchTitle (titleTag ++ t) = some (' ' :: t) := rfl

theorem processLine_titleLine {t : List Char} (ht : goodText t)
    (qs : List Question) (cur : Option Question) (idx : Nat) :
    processLine ⟨none, qs, cur⟩ idx (titleTag ++ t) = .ok ⟨some t, qs, cur⟩ := by
  unfold processLine
  have hm : matchTitle (trim (titleTag ++ t)) = some (' ' :: t) := by
    rw [trim_titleLine ht]
    exact matchTitle_titleLine t
  rw [if_pos ⟨rfl, by rw [hm]; rfl⟩, hm]
  simp only [Option.getD_some]
  rw [trim_cons_space (by decide), ht.2.1]

theorem processLine_blank (st : PState) (idx : Nat) : processLine st idx [] = .ok st := by
  unfold processLine
  rw [if_neg (by simp [trim, trimLeft, trimEndL, matchTitle])]
  rfl

/-- The serialized question header is already trimmed: it starts with a
hash and ends with the closing score bracket. -/
theorem trim_headerOf (q : Question) :
    trim (headerOf q) = headerOf q := by
  refine trim_eq_self ?_ ?_
  · intro c hc
    simp only [headerOf, List.cons_append, List.head?_cons, Option.some.injEq] at hc
    subst hc
    decide
  · intro c hc
    unfold headerOf at hc
    rw [show ['#', '#', ' ', 'Q', ':', ' '] ++ trim q.title ++ [' ', '['] ++
        natToChars q.score ++ [']'] =
        (['#', '#', ' ', 'Q', ':', ' '] ++ trim q.title ++ [' ', '['] ++
        natToChars q.score) ++ [']'] from rfl, List.getLast?_concat] at hc
    simp only [Option.some.injEq] at hc
    subst hc
    decide

theorem matchTitle_header (q : Question) : matchTitle (headerOf q) = none := rfl

theorem matchQuestion_header (q : Question) (hT : goodText q.title) :
    matchQuestion (headerOf q) =
      some (q.title ++ (' ' :: '[' :: (natToChars q.score ++ [']']))) := by
  unfold headerOf
  rw [hT.2.1]
  cases hq : q.title with
  | nil => exact absurd hq hT.1
  | cons a T =>
    have ha : isJsSpace a = false := goodText_head hT a (by rw [hq]; rfl)
    unfold matchQuestion
    simp only [List.cons_append, List.nil_append, List.append_assoc]
    rw [show (' ' :: 'Q' :: ':' :: ' ' :: (a :: (T ++ (' ' :: '[' ::
        (natToChars q.score ++ [']']))))).dropWhile isJsSpace
        = 'Q' :: ':' :: ' ' :: (a :: (T ++ (' ' :: '[' ::
        (natToChars q.score ++ [']'])))) by
      rw [List.dropWhile_cons_of_pos (by decide), List.dropWhile_cons_of_neg (by decide)]]
    simp only []
    rw [show (' ' :: (a :: (T ++ (' ' :: '[' ::
        (natToChars q.score ++ [']']))))).dropWhile isJsSpace
        = a :: (T ++ (' ' :: '[' :: (natToChars q.score ++ [']']))) by
      rw [List.dropWhile_cons_of_pos (by decide), List.dropWhile_cons_of_neg (by simp [ha])]]
    rw [if_pos]
    constructor
    · simp
    · rw [List.all_eq_true]
      intro c hc
      have hmem : c = a ∨ c ∈ T ∨ c = ' ' ∨ c = '[' ∨ c ∈ natToChars q.score ∨ c = ']' := by
        simp only [List.mem_cons, List.mem_append, List.mem_singleton,
          List.not_mem_nil, or_false] at hc
        tauto
      rcases hmem with hc2 | hc2 | hc2 | hc2 | hc2 | hc2
      · rw [hc2]
        exact hT.2.2 a (by rw [hq]; exact List.mem_cons_self a T)
      · exact hT.2.2 c (by rw [hq]; exact List.mem_cons_of_mem a hc2)
      · subst hc2; decide
      · subst hc2; decide
      · exact isDigit_isDotChar (natToChars_all_digit c hc2)
      · subst hc2; decide

theorem extractScore_headerCap (q : Question) (hT : goodText q.title) :
    extractScore (trim (q.title ++ (' ' :: '[' :: (natToChars q.score ++ [']'])))) =
      (q.score, q.title) := by
  have hre : q.title ++ (' ' :: '[' :: (natToChars q.score ++ [']'])) =
      (q.title ++ [' ']) ++ '[' :: (natToChars q.score ++ [']']) := by
    simp [List.append_assoc]
  rw [hre]
  have htr : trim ((q.title ++ [' ']) ++ '[' :: (natToChars q.score ++ [']'])) =
      (q.title ++ [' ']) ++ '[' :: (natToChars q.score ++ [']']) := by
    refine trim_eq_self ?_ ?_
    · intro c hc
      cases ht : q.title with
      | nil => exact absurd ht hT.1
      | cons a T =>
        rw [ht] at hc
        simp only [List.cons_append, List.head?_cons, Option.some.injEq] at hc
        subst hc
        exact goodText_head hT a (by rw [ht]; rfl)
    · intro c hc
      rw [show (q.title ++ [' ']) ++ '[' :: (natToChars q.score ++ [']']) =
          ((q.title ++ [' ']) ++ '[' :: natToChars q.score) ++ [']'] by
        simp [List.append_assoc], List.getLast?_concat] at hc
      simp only [Option.some.injEq] at hc
      subst hc
      decide
  rw [htr, extractScore_append_bracket,
    trim_snoc_space (by decide) hT.2.1 hT.1]

theorem processLine_header (q : Question) (hT : goodText q.title) (st : PState) (idx : Nat) :
    processLine st idx (headerOf q) =
      .ok ⟨st.title, st.questions ++ st.current.toList, some ⟨q.title, q.score, [], false⟩⟩ := by
  unfold processLine
  rw [trim_headerOf q]
  rw [if_neg (by rw [matchTitle_header q]; rintro ⟨h1, h2⟩; exact Bool.false_ne_true h2)]
  rw [matchQuestion_header q hT]
  simp only []
  rw [extractScore_headerCap q hT]

theorem trim_answerLine (a : Answer) (hA : goodText a.text) :
    trim (answerLine a) = answerLine a := by
  refine trim_eq_self ?_ ?_
  · intro c hc
    unfold answerLine at hc
    cases a.correct <;>
      simp only [List.cons_append, List.head?_cons, Option.some.injEq] at hc <;>
      · subst hc; decide
  · intro c hc
    unfold answerLine at hc
    rw [List.getLast?_append, hA.2.1] at hc
    cases hgt : a.text.getLast? with
    | none => exact absurd (List.getLast?_eq_none_iff.mp hgt) hA.1
    | some d =>
      rw [hgt] at hc
      simp only [Option.or_some, Option.some.injEq] at hc
      subst hc
      exact goodText_last hA d hgt

theorem matchAnswer_explicit (m : Char) (hm : m = ' ' ∨ m = 'x' ∨ m = 'X')
    (c : Char) (T : List Char) (hc : isJsSpace c = false)
    (hdot : (c :: T).all isDotChar = true) :
    matchAnswer ('-' :: ' ' :: '[' :: m :: ']' :: (' ' :: (c :: T))) = some (m, c :: T) := by
  show (if m = ' ' ∨ m = 'x' ∨ m = 'X' then
      let cap := List.dropWhile isJsSpace (' ' :: c :: T)
      if cap ≠ [] ∧ cap.all isDotChar = true then some (m, cap) else none
    else none) = some (m, c :: T)
  rw [if_pos hm]
  simp only []
  rw [List.dropWhile_cons_of_pos (by decide), List.dropWhile_cons_of_neg (by simp [hc])]
  rw [if_pos ⟨by simp, hdot⟩]

theorem matchAnswer_answerLine (a : Answer) (hA : goodText a.text) :
    matchAnswer (answerLine a) =
      some ((if a.correct then 'x' else ' '), a.text) := by
  cases ht : a.text with
  | nil => exact absurd ht hA.1
  | cons c T =>
    have hc : isJsSpace c = false := goodText_head hA c (by rw [ht]; rfl)
    have hdot : (c :: T).all isDotChar = true := by
      rw [List.all_eq_true]
      intro x hx
      exact hA.2.2 x (ht ▸ hx)
    unfold answerLine
    rw [hA.2.1, ht]
    cases hb : a.correct
    · simp only [if_neg Bool.false_ne_true, List.cons_append, List.nil_append,
        List.singleton_append]
      exact matchAnswer_explicit ' ' (Or.inl rfl) c T hc hdot
    · simp only [if_pos rfl, List.cons_append, List.nil_append, List.singleton_append]
      exact matchAnswer_explicit 'x' (Or.inr (Or.inl rfl)) c T hc hdot

theorem processLine_answer (a : Answer) (hA : goodText a.text) (st : PState)
    (cq : Question) (hcur : st.current = some cq) (idx : Nat) :
    processLine st idx (answerLine a) =
      .ok { st with current := some { cq with answers := cq.answers ++ [a] } } := by
  unfold processLine
  rw [trim_answerLine a hA]
  rw [if_neg (by simp [show matchTitle (answerLine a) = none from rfl])]
  rw [show matchQuestion (answerLine a) = none from rfl]
  rw [matchAnswer_answerLine a hA]
  simp only []
  rw [hcur]
  obtain ⟨t, b⟩ := a
  have htr : trim t = t := hA.2.1
  cases b <;> simp [htr]

/-! ### Running the parser over serialized lines -/

theorem runLines_nil (idx : Nat) (st : PState) : runLines idx st [] = .ok st := rfl

theorem runLines_cons (idx : Nat) (st : PState) (l : List Char) (ls : List (List Char)) :
    runLines idx st (l :: ls) =
      match processLine st idx l with
      | .error e => .error e
      | .ok st' => runLines (idx + 1) st' ls := rfl

theorem runLines_answers (ans : List Answer) (hans : ∀ a ∈ ans, goodText a.text) :
    ∀ (idx : Nat) (t : Option (List Char)) (qs : List Question) (cq : Question)
      (rest : List (List Char)),
    runLines idx ⟨t, qs, some cq⟩ (ans.map answerLine ++ rest) =
      runLines (idx + ans.length) ⟨t, qs, some { cq with answers := cq.answers ++ ans }⟩ rest := by
  induction ans with
  | nil => intro idx t qs cq rest; simp
  | cons a ans' ih =>
    intro idx t qs cq rest
    rw [List.map_cons, List.cons_append, runLines_cons,
      processLine_answer a (hans a (List.mem_cons_self a ans')) ⟨t, qs, some cq⟩ cq rfl idx]
    simp only []
    rw [ih (fun x hx => hans x (List.mem_cons_of_mem a hx))]
    simp only [List.append_assoc, List.singleton_append, List.length_cons]
    congr 1
    omega

/-- The question value the line parser accumulates for a serialized
question: same title, score and answers, `multipleAnswers` freshly `false`. -/
def resetQ (q : Question) : Question := ⟨q.title, q.score, q.answers, false⟩

/-- State transformer describing one whole question block. -/
def stepState (st : PState) (q : Question) : PState :=
  ⟨st.title, st.questions ++ st.current.toList, some (resetQ q)⟩

theorem runLines_block (q : Question) (hT : goodText q.title)
    (hans : ∀ a ∈ q.answers, goodText a.text) (idx : Nat) (t : Option (List Char))
    (qs : List Question) (cur : Option Question) (rest : List (List Char)) :
    runLines idx ⟨t, qs, cur⟩ (questionLines q ++ rest) =
      runLines (idx + (questionLines q).length) (stepState ⟨t, qs, cur⟩ q) rest := by
  unfold questionLines
  rw [List.cons_append, runLines_cons, processLine_header q hT ⟨t, qs, cur⟩ idx]
  simp only [List.append_assoc, List.singleton_append]
  rw [runLines_answers q.answers hans (idx + 1) t (qs ++ cur.toList) ⟨q.title, q.score, [], false⟩
    ([] :: rest)]
  rw [runLines_cons, processLine_blank _ _]
  simp only [List.nil_append, stepState, resetQ, List.length_cons, List.length_append,
    List.length_map, List.length_nil]
  have h : idx + 1 + q.answers.length + 1 = idx + (q.answers.length + (0 + 1) + 1) := by omega
  rw [h]

theorem runLines_blocks (qs : List Question)
    (h : ∀ q ∈ qs, goodText q.title ∧ ∀ a ∈ q.answers, goodText a.text) :
    ∀ (idx : Nat) (st : PState),
    runLines idx st ((qs.map questionLines).flatten) = .ok (qs.foldl stepState st) := by
  induction qs with
  | nil => intro idx st; simp [runLines_nil]
  | cons q qs' ih =>
    intro idx st
    rw [List.map_cons, List.flatten_cons]
    obtain ⟨t, qsd, cur⟩ := st
    rw [runLines_block q (h q (List.mem_cons_self q qs')).1 (h q (List.mem_cons_self q qs')).2,
      ih (fun x hx => h x (List.mem_cons_of_mem q hx)), List.foldl_cons]

theorem foldl_stepState_title (qs : List Question) :
    ∀ st : PState, (qs.foldl stepState st).title = st.title := by
  induction qs with
  | nil => intro st; rfl
  | cons q qs' ih => intro st; rw [List.foldl_cons, ih]; rfl

theorem foldl_stepState_questions (qs : List Question) :
    ∀ st : PState,
    (qs.foldl stepState st).questions ++ (qs.foldl stepState st).current.toList =
      (st.questions ++ st.current.toList) ++ qs.map resetQ := by
  induction qs with
  | nil => intro st; simp
  | cons q qs' ih =>
    intro st
    rw [List.foldl_cons, ih, List.map_cons]
    simp [stepState, List.append_assoc]

/-! ### finalizeQuestions lemmas -/

/-- What the finalizer does to a question that passes its checks. -/
def deriveQ (q : Question) : Question :=
  { q with multipleAnswers := decide (1 < countCorrect q.answers) }

/-- A question on which `finalizeQuestions` raises an error under the given
options. -/
def failsQ (options : ParseOptions) (q : Question) : Prop :=
  (options.requireAtLeastOneCorrect = true ∧ countCorrect q.answers = 0) ∨
  (options.enforceSingle = true ∧ 1 < countCorrect q.answers)

instance (options : ParseOptions) (q : Question) : Decidable (failsQ options q) := by
  unfold failsQ
  infer_instance

theorem finalizeGo_ok_of_not_fails {options : ParseOptions} {qs : List Question}
    (h : ∀ q ∈ qs, ¬failsQ options q) :
    ∀ k, finalizeGo options k qs = .ok (qs.map deriveQ) := by
  induction qs with
  | nil => intro k; rfl
  | cons q rest ih =>
    intro k
    have hq := h q (List.mem_cons_self q rest)
    unfold finalizeGo
    rw [if_neg (fun hc => hq (Or.inl hc)), if_neg (fun hc => hq (Or.inr hc)),
      ih (fun x hx => h x (List.mem_cons_of_mem q hx)) (k + 1)]
    rfl

theorem finalizeGo_ok_map {options : ParseOptions} :
    ∀ {qs out : List Question} {k : Nat}, finalizeGo options k qs = .ok out →
      out = qs.map deriveQ := by
  intro qs
  induction qs with
  | nil =>
    intro out k h
    simp only [finalizeGo, Except.ok.injEq] at h
    rw [← h]
    rfl
  | cons q rest ih =>
    intro out k h
    unfold finalizeGo at h
    simp only [] at h
    by_cases h1 : options.requireAtLeastOneCorrect = true ∧ countCorrect q.answers = 0
    · rw [if_pos h1] at h
      exact absurd h (by simp)
    · rw [if_neg h1] at h
      by_cases h2 : options.enforceSingle = true ∧ 1 < countCorrect q.answers
      · rw [if_pos h2] at h
        exact absurd h (by simp)
      · rw [if_neg h2] at h
        cases hrec : finalizeGo options (k + 1) rest with
        | error e =>
          rw [hrec] at h
          exact absurd h (by simp)
        | ok rest' =>
          rw [hrec] at h
          simp only [Except.ok.injEq] at h
          rw [← h, ih hrec]
          rfl

theorem finalizeGo_error_of_fails {options : ParseOptions} :
    ∀ {qs : List Question} {i : Nat} (hi : i < qs.length),
      (∀ j (hj : j < qs.length), j < i → ¬failsQ options (qs.get ⟨j, hj⟩)) →
      failsQ options (qs.get ⟨i, hi⟩) →
      ∀ k, finalizeGo options k qs =
        .error (if options.requireAtLeastOneCorrect = true ∧
                   countCorrect (qs.get ⟨i, hi⟩).answers = 0 then
          .noCorrect (k + i + 1) (qs.get ⟨i, hi⟩).title
        else
          .tooMany (k + i + 1) (qs.get ⟨i, hi⟩).title (countCorrect (qs.get ⟨i, hi⟩).answers)) := by
  intro qs
  induction qs with
  | nil => intro i hi; exact absurd hi (by simp)
  | cons q rest ih =>
    intro i hi hprev hfail k
    cases i with
    | zero =>
      simp only [List.get] at hfail ⊢
      unfold finalizeGo
      by_cases h1 : options.requireAtLeastOneCorrect = true ∧ countCorrect q.answers = 0
      · rw [if_pos h1, if_pos h1]
      · rw [if_neg h1, if_neg h1]
        rcases hfail with hf | hf
        · exact absurd hf h1
        · rw [if_pos hf]
    | succ i' =>
      have hq0 : ¬failsQ options q :=
        hprev 0 (by simp) (Nat.succ_pos i')
      simp only [List.get] at hfail ⊢
      unfold finalizeGo
      rw [if_neg (fun hc => hq0 (Or.inl hc)), if_neg (fun hc => hq0 (Or.inr hc))]
      have hi' : i' < rest.length := Nat.lt_of_succ_lt_succ hi
      have := ih hi'
        (fun j hj hji => hprev (j + 1) (Nat.succ_lt_succ hj) (Nat.succ_lt_succ hji))
        hfail (k + 1)
      rw [this]
      have harith : k + 1 + i' + 1 = k + (i' + 1) + 1 := by omega
      rw [harith]

theorem finalizeGo_error_of_exists {options : ParseOptions} :
    ∀ {qs : List Question}, (∃ q ∈ qs, failsQ options q) →
      ∀ k, ∃ e, finalizeGo options k qs = .error e := by
  intro qs
  induction qs with
  | nil => intro ⟨q, hq, _⟩; exact absurd hq (List.not_mem_nil q)
  | cons q rest ih =>
    intro ⟨p, hp, hfail⟩ k
    by_cases hq : failsQ options q
    · unfold finalizeGo
      by_cases h1 : options.requireAtLeastOneCorrect = true ∧ countCorrect q.answers = 0
      · rw [if_pos h1]
        exact ⟨_, rfl⟩
      · rw [if_neg h1]
        rcases hq with hf | hf
        · exact absurd hf h1
        · rw [if_pos hf]
          exact ⟨_, rfl⟩
    · rcases List.mem_cons.mp hp with hpq | hprest
      · exact absurd (hpq ▸ hfail) hq
      · obtain ⟨e, he⟩ := ih ⟨p, hprest, hfail⟩ (k + 1)
        unfold finalizeGo
        rw [if_neg (fun hc => hq (Or.inl hc)), if_neg (fun hc => hq (Or.inr hc)), he]
        exact ⟨e, rfl⟩

theorem finalizeQuestions_error_iff (options : ParseOptions) (qs : List Question) :
    (∃ e, finalizeQuestions qs options = .error e) ↔ ∃ q ∈ qs, failsQ options q := by
  constructor
  · intro ⟨e, he⟩
    by_contra hno
    push_neg at hno
    have hok : finalizeGo options 0 qs = .ok (qs.map deriveQ) :=
      finalizeGo_ok_of_not_fails (fun q hq => hno q hq) 0
    unfold finalizeQuestions at he
    rw [hok] at he
    exact absurd he (by simp)
  · intro h
    exact finalizeGo_error_of_exists h 0

/-! ### checkNoAnswers lemmas -/

theorem checkNoAnswers_ok_of_all {qs : List Question} (h : ∀ q ∈ qs, q.answers ≠ []) :
    ∀ k, checkNoAnswers k qs = .ok () := by
  induction qs with
  | nil => intro k; rfl
  | cons q rest ih =>
    intro k
    unfold checkNoAnswers
    rw [if_neg (h q (List.mem_cons_self q rest)), ih (fun x hx => h x (List.mem_cons_of_mem q hx))]

theorem checkNoAnswers_ok_all {qs : List Question} :
    ∀ {k}, checkNoAnswers k qs = .ok () → ∀ q ∈ qs, q.answers ≠ [] := by
  induction qs with
  | nil => intro k _ q hq; exact absurd hq (List.not_mem_nil q)
  | cons q rest ih =>
    intro k h p hp
    unfold checkNoAnswers at h
    by_cases hq : q.answers = []
    · rw [if_pos hq] at h
      exact absurd h (by simp)
    · rw [if_neg hq] at h
      rcases List.mem_cons.mp hp with hpq | hprest
      · rw [hpq]; exact hq
      · exact ih h p hprest

theorem checkNoAnswers_error_at {qs : List Question} :
    ∀ {i : Nat} (hi : i < qs.length),
      (qs.get ⟨i, hi⟩).answers = [] →
      (∀ j (hj : j < qs.length), j < i → (qs.get ⟨j, hj⟩).answers ≠ []) →
      ∀ k, checkNoAnswers k qs = .error (.noAnswers (k + i + 1) (qs.get ⟨i, hi⟩).title) := by
  induction qs with
  | nil => intro i hi; exact absurd hi (by simp)
  | cons q rest ih =>
    intro i hi hempty hprev k
    cases i with
    | zero =>
      simp only [List.get] at hempty ⊢
      unfold checkNoAnswers
      rw [if_pos hempty]
    | succ i' =>
      have hq0 : q.answers ≠ [] := hprev 0 (by simp) (Nat.succ_pos i')
      simp only [List.get] at hempty ⊢
      unfold checkNoAnswers
      rw [if_neg hq0]
      have hi' : i' < rest.length := Nat.lt_of_succ_lt_succ hi
      rw [ih hi' hempty
        (fun j hj hji => hprev (j + 1) (Nat.succ_lt_succ hj) (Nat.succ_lt_succ hji)) (k + 1)]
      have harith : k + 1 + i' + 1 = k + (i' + 1) + 1 := by omega
      rw [harith]

/-! ### convItems lemmas (structured-array path) -/

theorem convItems_ok_forall2 :
    ∀ {items : List RawItem} {qs : List Question} {k : Nat},
      convItems k items = .ok qs →
      List.Forall₂ (fun (item : RawItem) (q : Question) =>
        ∃ t, item.title = some t ∧
          q.score = (extractScore (trim t)).1 ∧
          q.title = (extractScore (trim t)).2 ∧
          q.multipleAnswers = false) items qs := by
  intro items
  induction items with
  | nil =>
    intro qs k h
    simp only [convItems, Except.ok.injEq] at h
    rw [← h]
    exact List.Forall₂.nil
  | cons item rest ih =>
    intro qs k h
    unfold convItems at h
    cases hitem : convItem k item with
    | error e =>
      rw [hitem] at h
      exact absurd h (by simp)
    | ok q =>
      rw [hitem] at h
      cases hrec : convItems (k + 1) rest with
      | error e =>
        rw [hrec] at h
        exact absurd h (by simp)
      | ok qs' =>
        rw [hrec] at h
        simp only [Except.ok.injEq] at h
        rw [← h]
        refine List.Forall₂.cons ?_ (ih hrec)
        unfold convItem at hitem
        cases ht : item.title with
        | none => rw [ht] at hitem; exact absurd hitem (by simp)
        | some t =>
          cases has : item.answers with
          | none => rw [ht, has] at hitem; exact absurd hitem (by simp)
          | some ans =>
            rw [ht, has] at hitem
            simp only [] at hitem
            cases hconv : convAnswers k 0 ans with
            | error e => rw [hconv] at hitem; exact absurd hitem (by simp)
            | ok rs =>
              rw [hconv] at hitem
              simp only [Except.ok.injEq] at hitem
              exact ⟨t, rfl, by rw [← hitem], by rw [← hitem], by rw [← hitem]⟩

/-! ### Well-formed questionnaires and the shape of serialized output -/

/-- A question satisfying the round-trip invariants: well-formed title,
positive score, at least one answer, well-formed answer texts. -/
def goodQ (q : Question) : Prop :=
  goodText q.title ∧ 0 < q.score ∧ q.answers ≠ [] ∧ ∀ a ∈ q.answers, goodText a.text

/-- A questionnaire satisfying the round-trip invariants. -/
def goodQCM (qcm : QCM) : Prop :=
  (∀ t, qcm.title = some t → goodText t) ∧ ∀ q ∈ qcm.questions, goodQ q

instance (q : Question) : Decidable (goodQ q) := by
  unfold goodQ
  infer_instance

theorem titleLine_all_dot {t : List Char} (ht : goodText t) :
    ∀ c ∈ titleTag ++ t, isDotChar c = true := by
  intro c hc
  rcases List.mem_append.mp hc with hc | hc
  · fin_cases hc <;> decide
  · exact ht.2.2 c hc

theorem headerOf_all_dot (q : Question) (hT : goodText q.title) :
    ∀ c ∈ headerOf q, isDotChar c = true := by
  intro c hc
  unfold headerOf at hc
  have hmem : c ∈ (['#', '#', ' ', 'Q', ':', ' '] : List Char) ∨ c ∈ trim q.title ∨
      c ∈ ([' ', '['] : List Char) ∨ c ∈ natToChars q.score ∨ c = ']' := by
    simp only [List.mem_append, List.mem_singleton] at hc
    tauto
  rcases hmem with hc2 | hc2 | hc2 | hc2 | hc2
  · fin_cases hc2 <;> decide
  · rw [hT.2.1] at hc2
    exact hT.2.2 c hc2
  · fin_cases hc2 <;> decide
  · exact isDigit_isDotChar (natToChars_all_digit c hc2)
  · subst hc2; decide

theorem answerLine_all_dot (a : Answer) (hA : goodText a.text) :
    ∀ c ∈ answerLine a, isDotChar c = true := by
  intro c hc
  unfold answerLine at hc
  have hmem : c ∈ (['-', ' '] : List Char) ∨
      c ∈ (if a.correct then ['[', 'x', ']'] else ['[', ' ', ']']) ∨
      c = ' ' ∨ c ∈ trim a.text := by
    simp only [List.mem_append, List.mem_singleton] at hc
    tauto
  rcases hmem with hc2 | hc2 | hc2 | hc2
  · fin_cases hc2 <;> decide
  · by_cases hb : a.correct = true
    · rw [if_pos hb] at hc2
      fin_cases hc2 <;> decide
    · rw [if_neg hb] at hc2
      fin_cases hc2 <;> decide
  · subst hc2; decide
  · rw [hA.2.1] at hc2
    exact hA.2.2 c hc2

theorem dot_clean {l : List Char} (h : ∀ c ∈ l, isDotChar c = true) :
    '\n' ∉ l ∧ '\r' ∉ l := by
  constructor
  · intro hm
    have := h '\n' hm
    simp [isDotChar] at this
  · intro hm
    have := h '\r' hm
    simp [isDotChar] at this

theorem mdLines_clean (qcm : QCM) (hg : goodQCM qcm) :
    ∀ l ∈ mdLines qcm, '\n' ∉ l ∧ '\r' ∉ l := by
  intro l hl
  unfold mdLines at hl
  rcases List.mem_append.mp hl with hl | hl
  · by_cases ht : titleTruthy qcm.title = true
    · rw [if_pos ht] at hl
      cases hto : qcm.title with
      | none => rw [hto] at ht; simp [titleTruthy] at ht
      | some t =>
        have hgt : goodText t := hg.1 t hto
        rw [hto] at hl
        simp only [Option.getD_some, List.mem_cons, List.not_mem_nil, or_false,
          List.mem_singleton] at hl
        rcases hl with hl | hl
        · rw [hl, hgt.2.1]
          exact dot_clean (titleLine_all_dot hgt)
        · rw [hl]
          exact ⟨List.not_mem_nil _, List.not_mem_nil _⟩
    · rw [if_neg ht] at hl
      exact absurd hl (List.not_mem_nil l)
  · obtain ⟨s, hs, hls⟩ := List.mem_flatten.mp hl
    obtain ⟨q, hqmem, hqs⟩ := List.mem_map.mp hs
    rw [← hqs] at hls
    unfold questionLines at hls
    have hgq := hg.2 q hqmem
    rcases List.mem_cons.mp hls with hl2 | hl2
    · rw [hl2]
      exact dot_clean (headerOf_all_dot q hgq.1)
    · rcases List.mem_append.mp hl2 with hl3 | hl3
      · obtain ⟨a, hamem, hal⟩ := List.mem_map.mp hl3
        rw [← hal]
        exact dot_clean (answerLine_all_dot a (hgq.2.2.2 a hamem))
      · simp only [List.mem_singleton] at hl3
        rw [hl3]
        exact ⟨List.not_mem_nil _, List.not_mem_nil _⟩

theorem joinWith_append_nil (sep : List Char) :
    ∀ {L : List (List Char)}, L ≠ [] → joinWith sep (L ++ [[]]) = joinWith sep L ++ sep := by
  intro L
  induction L with
  | nil => intro h; exact absurd rfl h
  | cons a L' ih =>
    intro _
    cases L' with
    | nil => simp [joinWith]
    | cons b L'' =>
      have ih' := ih (by simp)
      simp only [List.cons_append] at ih' ⊢
      rw [joinWith_cons_cons, joinWith_cons_cons, ih']
      simp [List.append_assoc]

theorem joinWith_snoc (sep : List Char) :
    ∀ (Y : List (List Char)) (l : List Char), ∃ X, joinWith sep (Y ++ [l]) = X ++ l := by
  intro Y
  induction Y with
  | nil => intro l; exact ⟨[], rfl⟩
  | cons a Y' ih =>
    intro l
    obtain ⟨X', hX'⟩ := ih l
    cases Y' with
    | nil => exact ⟨a ++ sep, by simp [joinWith, List.append_assoc]⟩
    | cons b Y'' =>
      refine ⟨a ++ sep ++ X', ?_⟩
      simp only [List.cons_append] at hX' ⊢
      rw [joinWith_cons_cons, hX']
      simp [List.append_assoc]

theorem splitLines_join_snoc_nl :
    ∀ {L : List (List Char)}, L ≠ [] → (∀ l ∈ L, '\n' ∉ l ∧ '\r' ∉ l) →
      splitLines (joinWith ['\n'] L ++ ['\n']) = L ++ [[]] := by
  intro L
  induction L with
  | nil => intro h; exact absurd rfl h
  | cons a L' ih =>
    intro _ hclean
    cases L' with
    | nil =>
      rw [joinWith_singleton]
      rw [show a ++ ['\n'] = a ++ '\n' :: [] from rfl,
        splitLines_append_nl (hclean a (List.mem_cons_self a _)).1
          (hclean a (List.mem_cons_self a _)).2]
      rfl
    | cons b L'' =>
      have hca := hclean a (List.mem_cons_self a _)
      have ih' := ih (by simp) (fun x hx => hclean x (List.mem_cons_of_mem a hx))
      rw [joinWith_cons_cons]
      have hgoal : (a ++ ['\n'] ++ joinWith ['\n'] (b :: L'')) ++ ['\n'] =
          a ++ '\n' :: (joinWith ['\n'] (b :: L'') ++ ['\n']) := by simp
      rw [hgoal, splitLines_append_nl hca.1 hca.2, ih']
      rfl

theorem trimEndL_join_snoc (Y : List (List Char)) (l : List Char)
    (hl : l ≠ []) (hlast : ∀ c, l.getLast? = some c → isJsSpace c = false) :
    trimEndL (joinWith ['\n'] ((Y ++ [l]) ++ [[]])) = joinWith ['\n'] (Y ++ [l]) := by
  rw [joinWith_append_nil ['\n'] (by simp)]
  obtain ⟨X, hX⟩ := joinWith_snoc ['\n'] Y l
  rw [hX, List.append_assoc, trimEndL_append_right (b := l ++ ['\n']) ?_]
  · rw [trimEndL_snoc_space (by decide), trimEndL_eq_self hlast]
  · rw [trimEndL_snoc_space (by decide), trimEndL_eq_self hlast]
    exact hl

/-- For a well-formed questionnaire whose serialized line list is non-empty,
splitting the serialized text recovers exactly the line list built by
`jsonToMd` (the final `trimEnd` removes the last blank separator and the
appended newline restores it). -/
theorem splitLines_jsonToMd (qcm : QCM) (hg : goodQCM qcm)
    (Y : List (List Char)) (l : List Char)
    (hmd : mdLines qcm = (Y ++ [l]) ++ [[]])
    (hl : l ≠ []) (hlast : ∀ c, l.getLast? = some c → isJsSpace c = false) :
    splitLines (jsonToMd qcm) = mdLines qcm := by
  unfold jsonToMd
  rw [hmd, trimEndL_join_snoc Y l hl hlast,
    splitLines_join_snoc_nl (by simp)
      (fun x hx => mdLines_clean qcm hg x (by rw [hmd]; exact List.mem_append_left _ hx))]

theorem map_deriveQ_resetQ (qs : List Question) :
    (qs.map resetQ).map deriveQ = qs.map deriveQ := by
  induction qs with
  | nil => rfl
  | cons q rest ih => simp only [List.map_cons, ih]; rfl

theorem not_failsQ_defaults (q : Question) : ¬failsQ ⟨false, false⟩ q := by
  rintro (⟨h, _⟩ | ⟨h, _⟩) <;> exact Bool.false_ne_true h

/-- Core of the round trip: parsing the serialization of a well-formed
questionnaire with default options succeeds and returns the same title and
the same questions with `multipleAnswers` re-derived. -/
theorem roundtrip_core (qcm : QCM) (hg : goodQCM qcm) :
    parseQCM (jsonToMd qcm) ⟨false, false⟩ = .ok ⟨qcm.title, qcm.questions.map deriveQ⟩ := by
  obtain ⟨tit, qss⟩ := qcm
  have hgood : ∀ q ∈ qss, goodText q.title ∧ ∀ a ∈ q.answers, goodText a.text :=
    fun q hq => ⟨(hg.2 q hq).1, (hg.2 q hq).2.2.2⟩
  have hne : ∀ q ∈ qss, q.answers ≠ [] := fun q hq => (hg.2 q hq).2.2.1
  -- the pipeline after the line loop
  have hpipeline : ∀ st : PState,
      runLines 0 ⟨none, [], none⟩ (splitLines (jsonToMd ⟨tit, qss⟩)) = .ok st →
      st.title = tit → st.questions ++ st.current.toList = qss.map resetQ →
      parseQCM (jsonToMd ⟨tit, qss⟩) ⟨false, false⟩ = .ok ⟨tit, qss.map deriveQ⟩ := by
    intro st hrun htitle hqs
    unfold parseQCM
    rw [hrun]
    simp only []
    rw [hqs, checkNoAnswers_ok_of_all (by
      intro q hq
      obtain ⟨q0, hq0, hq0e⟩ := List.mem_map.mp hq
      rw [← hq0e]
      exact hne q0 hq0) 0]
    simp only []
    rw [show finalizeQuestions (qss.map resetQ) ⟨false, false⟩ =
        .ok ((qss.map resetQ).map deriveQ) from
      finalizeGo_ok_of_not_fails (fun q _ => not_failsQ_defaults q) 0]
    rw [map_deriveQ_resetQ, htitle]
  cases qss with
  | nil =>
    cases tit with
    | none => rfl
    | some t =>
      have htg : goodText t := hg.1 t rfl
      refine hpipeline ⟨some t, [], none⟩ ?_ rfl (by simp)
      have hmdshape : mdLines ⟨some t, []⟩ = ([] ++ [titleTag ++ t]) ++ [[]] := by
        simp [mdLines, titleTruthy, htg.1, htg.2.1]
      rw [splitLines_jsonToMd ⟨some t, []⟩ hg [] (titleTag ++ t) hmdshape (by simp [titleTag])
        (trim_last_not_space (trim_titleLine htg)), hmdshape]
      simp only [List.nil_append]
      rw [show ([titleTag ++ t] ++ [[]] : List (List Char)) =
        (titleTag ++ t) :: [[]] from rfl]
      rw [runLines_cons, processLine_titleLine htg [] none 0]
      simp only []
      rw [runLines_cons, processLine_blank _ _]
      rfl
  | cons q0 qrest =>
    rcases List.eq_nil_or_concat (q0 :: qrest) with habs | ⟨qs0, qn, hqc⟩
    · exact absurd habs (by simp)
    rw [List.concat_eq_append] at hqc
    have hqmem : qn ∈ q0 :: qrest := by
      rw [hqc]
      exact List.mem_append_right _ (List.mem_singleton_self qn)
    have hqn : goodQ qn := hg.2 qn hqmem
    rcases List.eq_nil_or_concat qn.answers with habs | ⟨as0, an, hac⟩
    · exact absurd habs hqn.2.2.1
    rw [List.concat_eq_append] at hac
    have han : goodText an.text :=
      hqn.2.2.2 an (by rw [hac]; exact List.mem_append_right _ (List.mem_singleton_self an))
    have hFshape : ((q0 :: qrest).map questionLines).flatten =
        (((qs0.map questionLines).flatten ++ (headerOf qn :: as0.map answerLine)) ++
          [answerLine an]) ++ [[]] := by
      rw [hqc]
      simp [questionLines, hac, List.map_append, List.flatten_append, List.append_assoc]
    have hl : answerLine an ≠ [] := by simp [answerLine]
    have hlast := trim_last_not_space (trim_answerLine an han)
    cases tit with
    | none =>
      have hmdshape : mdLines ⟨none, q0 :: qrest⟩ =
          (((qs0.map questionLines).flatten ++ (headerOf qn :: as0.map answerLine)) ++
            [answerLine an]) ++ [[]] := by
        rw [← hFshape]
        simp [mdLines, titleTruthy]
      refine hpipeline ((q0 :: qrest).foldl stepState ⟨none, [], none⟩) ?_
        (by rw [foldl_stepState_title]) (by rw [foldl_stepState_questions]; simp)
      rw [splitLines_jsonToMd ⟨none, q0 :: qrest⟩ hg _ (answerLine an) hmdshape hl hlast,
        hmdshape, ← hFshape]
      exact runLines_blocks (q0 :: qrest) hgood 0 ⟨none, [], none⟩
    | some t =>
      have htg : goodText t := hg.1 t rfl
      have hmdshape : mdLines ⟨some t, q0 :: qrest⟩ =
          ((((titleTag ++ t) :: [] ::
            ((qs0.map questionLines).flatten ++ (headerOf qn :: as0.map answerLine)))) ++
            [answerLine an]) ++ [[]] := by
        simp only [mdLines, titleTruthy]
        rw [if_pos (by simp [htg.1])]
        simp only [Option.getD_some, htg.2.1, hFshape]
        simp [List.append_assoc]
      refine hpipeline ((q0 :: qrest).foldl stepState ⟨some t, [], none⟩) ?_
        (by rw [foldl_stepState_title]) (by rw [foldl_stepState_questions]; simp)
      rw [splitLines_jsonToMd ⟨some t, q0 :: qrest⟩ hg _ (answerLine an) hmdshape hl hlast,
        hmdshape]
      have hconv : (((((titleTag ++ t) :: [] ::
            ((qs0.map questionLines).flatten ++ (headerOf qn :: as0.map answerLine)))) ++
            [answerLine an]) ++ [[]] : List (List Char)) =
          (titleTag ++ t) :: [] :: ((q0 :: qrest).map questionLines).flatten := by
        rw [hFshape]
        simp [List.append_assoc]
      rw [hconv]
      rw [runLines_cons, processLine_titleLine htg [] none 0]
      simp only []
      rw [runLines_cons, processLine_blank _ _]
      simp only []
      exact runLines_blocks (q0 :: qrest) hgood 2 ⟨some t, [], none⟩

/-! ### Where parsed questions come from: the header-line invariant -/

/-- `q`'s title and score were produced by the question-header rule applied
to the raw line `raw`. -/
def openedBy (raw : List Char) (q : Question) : Prop :=
  ∃ cap, matchQuestion (trim raw) = some cap ∧
    q.score = (extractScore (trim cap)).1 ∧ q.title = (extractScore (trim cap)).2

theorem processLine_opened {st : PState} {idx : Nat} {l : List Char} {st1 : PState}
    (h : processLine st idx l = .ok st1) :
    ∀ q ∈ st1.questions ++ st1.current.toList,
      (∃ q0 ∈ st.questions ++ st.current.toList, q.score = q0.score ∧ q.title = q0.title) ∨
      openedBy l q := by
  intro q hq
  unfold processLine at h
  by_cases hc1 : titleTruthy st.title = false ∧ (matchTitle (trim l)).isSome = true
  · rw [if_pos hc1] at h
    simp only [Except.ok.injEq] at h
    rw [← h] at hq
    exact Or.inl ⟨q, hq, rfl, rfl⟩
  · rw [if_neg hc1] at h
    cases hmq : matchQuestion (trim l) with
    | some cap =>
      rw [hmq] at h
      simp only [Except.ok.injEq] at h
      rw [← h] at hq
      simp only [Option.toList_some] at hq
      rcases List.mem_append.mp hq with hq2 | hq2
      · exact Or.inl ⟨q, List.mem_append.mpr (by
          rcases List.mem_append.mp hq2 with h3 | h3
          · exact Or.inl h3
          · right
            cases hcur : st.current with
            | none => rw [hcur] at h3; exact absurd h3 (List.not_mem_nil q)
            | some c => rw [hcur] at h3; exact h3), rfl, rfl⟩
      · simp only [List.mem_singleton] at hq2
        rw [hq2]
        exact Or.inr ⟨cap, hmq, rfl, rfl⟩
    | none =>
      rw [hmq] at h
      cases hma : matchAnswer (trim l) with
      | some mc =>
        rw [hma] at h
        cases hcur : st.current with
        | none => rw [hcur] at h; exact absurd h (by simp)
        | some cq =>
          rw [hcur] at h
          simp only [Except.ok.injEq] at h
          rw [← h] at hq
          simp only [Option.toList_some] at hq
          rcases List.mem_append.mp hq with hq2 | hq2
          · exact Or.inl ⟨q, List.mem_append.mpr (Or.inl hq2), rfl, rfl⟩
          · simp only [List.mem_singleton] at hq2
            refine Or.inl ⟨cq, List.mem_append.mpr (Or.inr (by simp [hcur])), ?_, ?_⟩ <;>
              rw [hq2]
      | none =>
        rw [hma] at h
        by_cases hc2 : trim l = [] ∨ commentStart.isPrefixOf (trim l)
        · rw [if_pos hc2] at h
          simp only [Except.ok.injEq] at h
          rw [← h] at hq
          exact Or.inl ⟨q, hq, rfl, rfl⟩
        · rw [if_neg hc2] at h
          exact absurd h (by simp)

theorem runLines_opened :
    ∀ {ls : List (List Char)} {idx : Nat} {st st' : PState},
      runLines idx st ls = .ok st' →
      ∀ q ∈ st'.questions ++ st'.current.toList,
        (∃ q0 ∈ st.questions ++ st.current.toList, q.score = q0.score ∧ q.title = q0.title) ∨
        ∃ raw ∈ ls, openedBy raw q := by
  intro ls
  induction ls with
  | nil =>
    intro idx st st' h q hq
    simp only [runLines_nil, Except.ok.injEq] at h
    rw [← h] at hq
    exact Or.inl ⟨q, hq, rfl, rfl⟩
  | cons l ls' ih =>
    intro idx st st' h q hq
    rw [runLines_cons] at h
    cases hpl : processLine st idx l with
    | error e => rw [hpl] at h; exact absurd h (by simp)
    | ok st1 =>
      rw [hpl] at h
      rcases ih h q hq with ⟨q0, hq0, hsc, hti⟩ | ⟨raw, hraw, hop⟩
      · rcases processLine_opened hpl q0 hq0 with ⟨q1, hq1, hsc1, hti1⟩ | hop
        · exact Or.inl ⟨q1, hq1, by rw [hsc, hsc1], by rw [hti, hti1]⟩
        · refine Or.inr ⟨l, List.mem_cons_self l ls', ?_⟩
          obtain ⟨cap, hcap, hs, ht⟩ := hop
          exact ⟨cap, hcap, by rw [hsc, hs], by rw [hti, ht]⟩
      · exact Or.inr ⟨raw, List.mem_cons_of_mem l hraw, hop⟩

/-- Every question of a successful `parseQCM` result gets its score and
title from the question-header rule applied to one of the input lines. -/
theorem parseQCM_opened {md : List Char} {options : ParseOptions} {qcm : QCM}
    (h : parseQCM md options = .ok qcm) :
    ∀ q ∈ qcm.questions, ∃ raw ∈ splitLines md, openedBy raw q := by
  intro q hq
  unfold parseQCM at h
  cases hrun : runLines 0 ⟨none, [], none⟩ (splitLines md) with
  | error e => rw [hrun] at h; exact absurd h (by simp)
  | ok st =>
    rw [hrun] at h
    simp only [] at h
    cases hchk : checkNoAnswers 0 (st.questions ++ st.current.toList) with
    | error e => rw [hchk] at h; exact absurd h (by simp)
    | ok u =>
      rw [hchk] at h
      cases hfin : finalizeQuestions (st.questions ++ st.current.toList) options with
      | error e => rw [hfin] at h; exact absurd h (by simp)
      | ok qs' =>
        rw [hfin] at h
        simp only [Except.ok.injEq] at h
        rw [← h] at hq
        simp only [] at hq
        have hq' := finalizeGo_ok_map hfin ▸ hq
        obtain ⟨q0, hq0, hq0e⟩ := List.mem_map.mp hq'
        have hsrc := runLines_opened hrun q0 hq0
        rcases hsrc with ⟨q1, hq1, _, _⟩ | ⟨raw, hraw, hop⟩
        · exact absurd hq1 (List.not_mem_nil q1)
        · obtain ⟨cap, hcap, hs, ht⟩ := hop
          exact ⟨raw, hraw, cap, hcap, by rw [← hq0e, ← hs]; rfl, by rw [← hq0e, ← ht]; rfl⟩

/-! ### Further extractScore facts (titles are trimmed; empty titles) -/

theorem extractScore_snd_trimmed {text : List Char} (h : trim text = text) :
    trim ((extractScore text).2) = (extractScore text).2 := by
  unfold extractScore
  cases hr : text.reverse with
  | nil => exact h
  | cons a rest =>
    by_cases ha : a = ']'
    · subst ha
      simp only []
      by_cases hcond : rest.takeWhile isDigit ≠ [] ∧
          (rest.drop (rest.takeWhile isDigit).length).head? = some '['
      · rw [if_pos hcond]
        exact trim_trim _
      · rw [if_neg hcond]
        exact h
    · simp only []
      split
      · rename_i heq
        rw [List.cons_eq_cons] at heq
        exact absurd heq.1 ha
      · exact h

theorem trimEndL_eq_nil_iff {s : List Char} :
    trimEndL s = [] ↔ ∀ c ∈ s, isJsSpace c = true := by
  unfold trimEndL
  rw [List.reverse_eq_nil_iff, List.dropWhile_eq_nil_iff]
  constructor
  · intro h c hc
    exact h c (List.mem_reverse.mpr hc)
  · intro h c hc
    exact h c (List.mem_reverse.mp hc)

theorem trim_eq_nil_iff {s : List Char} : trim s = [] ↔ ∀ c ∈ s, isJsSpace c = true := by
  constructor
  · intro h c hc
    by_contra hns
    have hns' : isJsSpace c = false := by
      cases hcs : isJsSpace c
      · rfl
      · exact absurd hcs hns
    -- the trimmed-left part is non-empty with a non-space head, so trim is non-empty
    have h1 : trimLeft s ≠ [] := by
      intro hnil
      unfold trimLeft at hnil
      rw [List.dropWhile_eq_nil_iff] at hnil
      rw [hnil c hc] at hns'
      exact absurd hns' (by decide)
    have h2 : trimEndL (trimLeft s) = [] := h
    rw [trimEndL_eq_nil_iff] at h2
    cases hcons : trimLeft s with
    | nil => exact h1 hcons
    | cons d t =>
      have hd : isJsSpace d = false := trimLeft_head_not_space (by rw [hcons]; rfl)
      have := h2 d (by rw [hcons]; exact List.mem_cons_self d t)
      rw [hd] at this
      exact absurd this (by decide)
  · intro h
    unfold trim trimLeft
    rw [List.dropWhile_eq_nil_iff.mpr h]
    rfl

/-- An extracted question title is empty only when the whole (trimmed)
header text was exactly a bracketed digit run. -/
theorem extractScore_snd_empty {text : List Char} (htr : trim text = text)
    (h : (extractScore text).2 = []) :
    text = [] ∨ ∃ ds, ds ≠ [] ∧ (∀ c ∈ ds, isDigit c = true) ∧ text = '[' :: (ds ++ [']']) := by
  unfold extractScore at h
  cases hr : text.reverse with
  | nil =>
    left
    have := congrArg List.reverse hr
    rwa [List.reverse_reverse] at this
  | cons a rest =>
    rw [hr] at h
    by_cases ha : a = ']'
    · subst ha
      simp only [] at h
      by_cases hcond : rest.takeWhile isDigit ≠ [] ∧
          (rest.drop (rest.takeWhile isDigit).length).head? = some '['
      · rw [if_pos hcond] at h
        -- reconstruct text from its reverse decomposition
        set ds := rest.takeWhile isDigit with hds
        have hdrop : rest.drop ds.length = '[' :: (rest.drop ds.length).tail := by
          cases hdc : rest.drop ds.length with
          | nil => rw [hdc] at hcond; simp at hcond
          | cons b bs =>
            rw [hdc] at hcond
            simp only [List.head?_cons, Option.some.injEq] at hcond
            rw [hcond.2]
            rfl
        have hrest : rest = ds ++ '[' :: (rest.drop ds.length).tail := by
          conv_lhs => rw [← List.take_append_drop ds.length rest]
          rw [hdrop]
          congr 1
          have hpre := List.takeWhile_prefix (l := rest) isDigit
          rw [List.prefix_iff_eq_take] at hpre
          rw [← hds] at hpre
          exact hpre.symm
        -- the stripped remainder is all whitespace
        rw [trim_eq_nil_iff] at h
        have htext : text = ((rest.drop ds.length).tail).reverse ++ '[' :: (ds.reverse ++ [']']) := by
          have h1 := congrArg List.reverse hr
          rw [List.reverse_reverse] at h1
          rw [h1, hrest]
          simp [List.reverse_append, List.append_assoc]
        -- text is trimmed, so its head is not whitespace; the whitespace tail must be empty
        cases htl : ((rest.drop ds.length).tail).reverse with
        | nil =>
          right
          refine ⟨ds.reverse, by
            intro hnil
            rw [List.reverse_eq_nil_iff] at hnil
            exact hcond.1 hnil, ?_, by rw [htext, htl]; simp⟩
          intro c hc
          exact List.mem_takeWhile_imp (List.mem_reverse.mp hc)
        | cons w ws =>
          have hw : isJsSpace w = true := h w (by rw [htl]; exact List.mem_cons_self w ws)
          have hhead : text.head? = some w := by
            rw [htext, htl]
            rfl
          have := trim_head_not_space htr w hhead
          rw [hw] at this
          exact absurd this (by decide)
      · rw [if_neg hcond] at h
        left
        exact h
    · simp only [] at h
      revert h
      split
      · rename_i heq
        rw [List.cons_eq_cons] at heq
        exact absurd heq.1 ha
      · intro h
        left
        exact h

/-! ### Pipeline lemmas for the two entry points -/

theorem parseQCM_ok_questions {md : List Char} {options : ParseOptions} {qcm : QCM}
    (h : parseQCM md options = .ok qcm) :
    ∃ st : PState, runLines 0 ⟨none, [], none⟩ (splitLines md) = .ok st ∧
      checkNoAnswers 0 (st.questions ++ st.current.toList) = .ok () ∧
      qcm.title = st.title ∧
      qcm.questions = (st.questions ++ st.current.toList).map deriveQ := by
  unfold parseQCM at h
  cases hrun : runLines 0 ⟨none, [], none⟩ (splitLines md) with
  | error e => rw [hrun] at h; exact absurd h (by simp)
  | ok st =>
    rw [hrun] at h
    simp only [] at h
    cases hchk : checkNoAnswers 0 (st.questions ++ st.current.toList) with
    | error e => rw [hchk] at h; exact absurd h (by simp)
    | ok u =>
      rw [hchk] at h
      cases hfin : finalizeQuestions (st.questions ++ st.current.toList) options with
      | error e => rw [hfin] at h; exact absurd h (by simp)
      | ok qs' =>
        rw [hfin] at h
        simp only [Except.ok.injEq] at h
        exact ⟨st, rfl, hchk, by rw [← h], by rw [← h]; exact finalizeGo_ok_map hfin⟩

theorem parseQCM_error_noAnswers {md : List Char} {options : ParseOptions} {st : PState}
    (hrun : runLines 0 ⟨none, [], none⟩ (splitLines md) = .ok st)
    {i : Nat} (hi : i < (st.questions ++ st.current.toList).length)
    (hempty : ((st.questions ++ st.current.toList).get ⟨i, hi⟩).answers = [])
    (hprev : ∀ j (hj : j < (st.questions ++ st.current.toList).length), j < i →
      ((st.questions ++ st.current.toList).get ⟨j, hj⟩).answers ≠ []) :
    parseQCM md options =
      .error (.noAnswers (i + 1) ((st.questions ++ st.current.toList).get ⟨i, hi⟩).title) := by
  unfold parseQCM
  rw [hrun]
  simp only []
  rw [checkNoAnswers_error_at hi hempty hprev 0]
  simp only [Nat.zero_add]

theorem parseQCMFromArray_ok_questions {items : List RawItem} {options : ParseOptions}
    {qcm : QCM} (h : parseQCMFromArray items options = .ok qcm) :
    ∃ qs : List Question, convItems 0 items = .ok qs ∧
      qcm.title = none ∧ qcm.questions = qs.map deriveQ := by
  unfold parseQCMFromArray at h
  cases hconv : convItems 0 items with
  | error e => rw [hconv] at h; exact absurd h (by simp)
  | ok qs =>
    rw [hconv] at h
    simp only [] at h
    cases hfin : finalizeQuestions qs options with
    | error e => rw [hfin] at h; exact absurd h (by simp)
    | ok qs' =>
      rw [hfin] at h
      simp only [Except.ok.injEq] at h
      exact ⟨qs, rfl, by rw [← h], by rw [← h]; exact finalizeGo_ok_map hfin⟩

theorem parseQCMFromArray_single_bad_answer {t : List Char} {a : RawAnswer}
    {e : PErr} (h : convAnswer 0 0 a = .error e) (options : ParseOptions) :
    parseQCMFromArray [⟨some t, some [a]⟩] options = .error e := by
  unfold parseQCMFromArray convItems convItem convAnswers
  simp only []
  rw [h]

/-! ### processLine characterization for the title guard -/

theorem processLine_title_falsy {st : PState} {idx : Nat} {raw rem : List Char}
    (hfalsy : st.title = none ∨ st.title = some [])
    (hm : matchTitle (trim raw) = some rem) :
    processLine st idx raw = .ok { st with title := some (trim rem) } := by
  unfold processLine
  have htf : titleTruthy st.title = false := by
    rcases hfalsy with hf | hf <;> rw [hf] <;> simp [titleTruthy]
  rw [if_pos ⟨htf, by rw [hm]; rfl⟩, hm]
  rfl

theorem processLine_title_truthy_unrecognized {st : PState} {idx : Nat}
    {raw rem tt : List Char} (htruthy : st.title = some tt) (htt : tt ≠ [])
    (hm : matchTitle (trim raw) = some rem)
    (hq : matchQuestion (trim raw) = none)
    (ha : matchAnswer (trim raw) = none)
    (hnb : trim raw ≠ [])
    (hnc : ¬commentStart.isPrefixOf (trim raw)) :
    processLine st idx raw = .error (.unrecognized (idx + 1) raw) := by
  unfold processLine
  rw [if_neg (by
    rintro ⟨h1, _⟩
    rw [htruthy] at h1
    simp [titleTruthy, htt] at h1)]
  rw [hq, ha, if_neg (by rintro (h2 | h2); exact hnb h2; exact hnc h2)]

/-! ### jsonToMd shape lemmas -/

theorem headerOf_getLast (q : Question) : (headerOf q).getLast? = some ']' := by
  unfold headerOf
  rw [show ['#', '#', ' ', 'Q', ':', ' '] ++ trim q.title ++ [' ', '['] ++
      natToChars q.score ++ [']'] =
      (['#', '#', ' ', 'Q', ':', ' '] ++ trim q.title ++ [' ', '['] ++
      natToChars q.score) ++ [']'] from rfl, List.getLast?_concat]

theorem headerOf_ne_nil (q : Question) : headerOf q ≠ [] := by
  unfold headerOf
  simp

theorem jsonToMd_title_truthy {qcm : QCM} {t : List Char} {q0 : Question}
    {qs' : List Question} (ht : qcm.title = some t) (htne : t ≠ [])
    (hq : qcm.questions = q0 :: qs') :
    ∃ rest, jsonToMd qcm =
      titleTag ++ trim t ++ '\n' :: '\n' :: (headerOf q0 ++ rest) := by
  unfold jsonToMd mdLines
  rw [ht, hq, if_pos (by simp [titleTruthy, htne])]
  simp only [Option.getD_some, List.map_cons, List.flatten_cons, questionLines]
  have hlines : ([titleTag ++ trim t, []] : List (List Char)) ++
      ((headerOf q0 :: (q0.answers.map answerLine ++ [[]])) ++ (qs'.map questionLines).flatten) =
      (titleTag ++ trim t) :: [] :: headerOf q0 ::
        (q0.answers.map answerLine ++ ([[]] ++ (qs'.map questionLines).flatten)) := by
    simp [List.append_assoc]
  rw [hlines]
  cases hB : q0.answers.map answerLine ++ ([[]] ++ (qs'.map questionLines).flatten) with
  | nil => simp at hB
  | cons b bs =>
    rw [joinWith_cons_cons, joinWith_cons_cons, joinWith_cons_cons]
    have hshape : (titleTag ++ trim t) ++ ['\n'] ++
        ([] ++ ['\n'] ++ (headerOf q0 ++ ['\n'] ++ joinWith ['\n'] (b :: bs))) =
        ((titleTag ++ trim t) ++ '\n' :: '\n' :: headerOf q0) ++
          ('\n' :: joinWith ['\n'] (b :: bs)) := by
      simp [List.append_assoc]
    rw [hshape]
    rw [trimEndL_append_left (by simp [titleTag]) (by
      intro c hc
      rw [List.getLast?_append] at hc
      rw [show ('\n' :: '\n' :: headerOf q0 : List Char) = ['\n', '\n'] ++ headerOf q0
        from rfl, List.getLast?_append, headerOf_getLast] at hc
      simp only [Option.or_some, Option.some.injEq] at hc
      rw [← hc]
      decide)]
    refine ⟨trimEndL ('\n' :: joinWith ['\n'] (b :: bs)) ++ ['\n'], ?_⟩
    simp [List.append_assoc]

theorem jsonToMd_title_falsy {qcm : QCM} {q0 : Question} {qs' : List Question}
    (ht : qcm.title = none ∨ qcm.title = some [])
    (hq : qcm.questions = q0 :: qs') :
    ∃ rest, jsonToMd qcm = headerOf q0 ++ rest := by
  unfold jsonToMd mdLines
  rw [hq, if_neg (by rcases ht with h | h <;> rw [h] <;> simp [titleTruthy])]
  simp only [List.map_cons, List.flatten_cons, questionLines, List.nil_append]
  have hlines : (headerOf q0 :: (q0.answers.map answerLine ++ [[]])) ++
      (qs'.map questionLines).flatten =
      headerOf q0 :: (q0.answers.map answerLine ++ ([[]] ++ (qs'.map questionLines).flatten)) := by
    simp [List.append_assoc]
  rw [hlines]
  cases hB : q0.answers.map answerLine ++ ([[]] ++ (qs'.map questionLines).flatten) with
  | nil => simp at hB
  | cons b bs =>
    rw [joinWith_cons_cons]
    have hshape : headerOf q0 ++ ['\n'] ++ joinWith ['\n'] (b :: bs) =
        headerOf q0 ++ ('\n' :: joinWith ['\n'] (b :: bs)) := by
      simp [List.append_assoc]
    rw [hshape]
    rw [trimEndL_append_left (headerOf_ne_nil q0) (by
      intro c hc
      rw [headerOf_getLast] at hc
      simp only [Option.some.injEq] at hc
      rw [← hc]
      decide)]
    exact ⟨trimEndL ('\n' :: joinWith ['\n'] (b :: bs)) ++ ['\n'], by simp [List.append_assoc]⟩

theorem jsonToMd_title_truthy_no_questions {qcm : QCM} {t : List Char}
    (ht : qcm.title = some t) (htne : t ≠ []) (hq : qcm.questions = []) :
    jsonToMd qcm = trimEndL (titleTag ++ trim t) ++ ['\n'] := by
  unfold jsonToMd mdLines
  rw [ht, hq, if_pos (by simp [titleTruthy, htne])]
  simp only [Option.getD_some, List.map_nil, List.flatten_nil, List.append_nil]
  rw [show joinWith ['\n'] [titleTag ++ trim t, []] =
    (titleTag ++ trim t) ++ ['\n'] ++ joinWith ['\n'] [[]] from rfl]
  rw [show joinWith ['\n'] [([] : List Char)] = [] from rfl, List.append_nil,
    trimEndL_snoc_space (by decide)]

theorem mem_map_deriveQ {q : Question} {qs : List Question}
    (h : q ∈ qs.map deriveQ) :
    q.multipleAnswers = decide (1 < countCorrect q.answers) ∧
    (∃ q0 ∈ qs, q.answers = q0.answers ∧ q.title = q0.title ∧ q.score = q0.score) := by
  obtain ⟨q0, hq0, hq0e⟩ := List.mem_map.mp h
  constructor
  · rw [← hq0e]
    rfl
  · exact ⟨q0, hq0, by rw [← hq0e]; rfl, by rw [← hq0e]; rfl, by rw [← hq0e]; rfl⟩

theorem parseQCM_ok_answers_ne_nil {md : List Char} {options : ParseOptions} {qcm : QCM}
    (h : parseQCM md options = .ok qcm) : ∀ q ∈ qcm.questions, q.answers ≠ [] := by
  intro q hq
  obtain ⟨st, _, hchk, _, hqs⟩ := parseQCM_ok_questions h
  rw [hqs] at hq
  obtain ⟨_, q0, hq0, hans, _, _⟩ := mem_map_deriveQ hq
  rw [hans]
  exact checkNoAnswers_ok_all hchk q0 hq0

theorem forall2_map_right {α β γ : Type} {R : α → γ → Prop} {f : β → γ} :
    ∀ {l : List α} {u : List β}, List.Forall₂ (fun a b => R a (f b)) l u →
      List.Forall₂ R l (u.map f) := by
  intro l u h
  induction h with
  | nil => exact List.Forall₂.nil
  | cons hab _ ih => exact List.Forall₂.cons hab ih

/-! ## Claim theorems -/

/-- C5: for every question in the output of `finalizeQuestions` — and hence
of both parse entry points — `multipleAnswers` equals
`(number of answers with correct = true) > 1`, regardless of the
`multipleAnswers` value carried by the input question (the input flag is
universally quantified away: the statement holds for every input list). -/
theorem c5_multipleAnswers_derived :
    (∀ (qs : List Question) (options : ParseOptions) (out : List Question),
      finalizeQuestions qs options = .ok out →
      ∀ q ∈ out, q.multipleAnswers = decide (1 < countCorrect q.answers)) ∧
    (∀ (md : List Char) (options : ParseOptions) (qcm : QCM),
      parseQCM md options = .ok qcm →
      ∀ q ∈ qcm.questions, q.multipleAnswers = decide (1 < countCorrect q.answers)) ∧
    (∀ (items : List RawItem) (options : ParseOptions) (qcm : QCM),
      parseQCMFromArray items options = .ok qcm →
      ∀ q ∈ qcm.questions, q.multipleAnswers = decide (1 < countCorrect q.answers)) := by
  refine ⟨?_, ?_, ?_⟩
  · intro qs options out hfin q hq
    rw [finalizeGo_ok_map hfin] at hq
    exact (mem_map_deriveQ hq).1
  · intro md options qcm h q hq
    obtain ⟨st, _, _, _, hqs⟩ := parseQCM_ok_questions h
    rw [hqs] at hq
    exact (mem_map_deriveQ hq).1
  · intro items options qcm h q hq
    obtain ⟨qs, _, _, hqs⟩ := parseQCMFromArray_ok_questions h
    rw [hqs] at hq
    exact (mem_map_deriveQ hq).1

/-- Witness for C5 at a concrete parse: a question with two correct answers
comes back with `multipleAnswers = true`. -/
theorem c5_multipleAnswers_derived_witness :
    (⟨['A'], 1, [⟨['a'], true⟩, ⟨['b'], true⟩], true⟩ : Question).multipleAnswers =
      decide (1 < countCorrect [⟨['a'], true⟩, ⟨['b'], true⟩]) :=
  c5_multipleAnswers_derived.2.1
    ['#', '#', ' ', 'Q', ':', ' ', 'A', '\n', '-', ' ', '[', 'x', ']', ' ', 'a', '\n',
      '-', ' ', '[', 'x', ']', ' ', 'b']
    ⟨false, false⟩
    ⟨none, [⟨['A'], 1, [⟨['a'], true⟩, ⟨['b'], true⟩], true⟩]⟩
    (by decide) _ (by decide)

/-- C6: `finalizeQuestions` fails exactly when some question violates an
active option; the first failing question determines the error, the
`requireAtLeastOneCorrect` branch is checked before `enforceSingle` (the
two conditions are mutually exclusive, so the order shows up as: a
zero-correct question under `requireAtLeastOneCorrect` always reports
`noCorrect`), and the `enforceSingle` error carries the question's 1-based
position, its title and the actual correct-answer count. -/
theorem c6_finalize_error_characterization :
    ∀ (qs : List Question) (options : ParseOptions),
    ((∃ e, finalizeQuestions qs options = .error e) ↔ ∃ q ∈ qs, failsQ options q) ∧
    (∀ i (hi : i < qs.length),
      (∀ j (hj : j < qs.length), j < i → ¬failsQ options (qs.get ⟨j, hj⟩)) →
      options.requireAtLeastOneCorrect = true →
      countCorrect (qs.get ⟨i, hi⟩).answers = 0 →
      finalizeQuestions qs options = .error (.noCorrect (i + 1) (qs.get ⟨i, hi⟩).title)) ∧
    (∀ i (hi : i < qs.length),
      (∀ j (hj : j < qs.length), j < i → ¬failsQ options (qs.get ⟨j, hj⟩)) →
      options.enforceSingle = true →
      1 < countCorrect (qs.get ⟨i, hi⟩).answers →
      finalizeQuestions qs options =
        .error (.tooMany (i + 1) (qs.get ⟨i, hi⟩).title
          (countCorrect (qs.get ⟨i, hi⟩).answers))) := by
  intro qs options
  refine ⟨finalizeQuestions_error_iff options qs, ?_, ?_⟩
  · intro i hi hprev hreq hcc
    have h := finalizeGo_error_of_fails hi hprev (Or.inl ⟨hreq, hcc⟩) 0
    rw [if_pos ⟨hreq, hcc⟩] at h
    unfold finalizeQuestions
    rw [h, Nat.zero_add]
  · intro i hi hprev hsingle hcc
    have h := finalizeGo_error_of_fails hi hprev (Or.inr ⟨hsingle, hcc⟩) 0
    rw [if_neg (by rintro ⟨_, h0⟩; omega)] at h
    unfold finalizeQuestions
    rw [h, Nat.zero_add]

/-- Witness for C6 at a concrete input: a two-correct-answer question under
`enforceSingle` fails with the count 2 reported. -/
theorem c6_finalize_error_characterization_witness :
    finalizeQuestions [⟨['A'], 1, [⟨['a'], true⟩, ⟨['b'], true⟩], false⟩] ⟨true, false⟩ =
      .error (.tooMany 1 ['A'] 2) :=
  (c6_finalize_error_characterization
      [⟨['A'], 1, [⟨['a'], true⟩, ⟨['b'], true⟩], false⟩] ⟨true, false⟩).2.2
    0 (by decide) (fun j hj hji => absurd hji (Nat.not_lt_zero j)) rfl (by decide)

/-- C10: `parseQCM` is insensitive to the line-ending style.  A text is
given as its list of lines (each free of line terminators); joining with
CRLF and joining with LF parse to the same result — the same
questionnaire, or the very same error. -/
theorem c10_crlf_insensitive :
    ∀ (ls : List (List Char)) (options : ParseOptions),
    (∀ l ∈ ls, '\n' ∉ l ∧ '\r' ∉ l) →
    parseQCM (joinWith ['\r', '\n'] ls) options = parseQCM (joinWith ['\n'] ls) options := by
  intro ls options h
  cases ls with
  | nil => rfl
  | cons a t =>
    unfold parseQCM
    rw [splitLines_joinWith_crlf (by simp) h, splitLines_joinWith_lf (by simp) h]

/-- Witness for C10 at a concrete two-line document. -/
theorem c10_crlf_insensitive_witness :
    parseQCM (joinWith ['\r', '\n']
        [['#', '#', ' ', 'Q', ':', ' ', 'A'], ['-', ' ', '[', 'x', ']', ' ', 'a']])
      ⟨false, false⟩ =
    parseQCM (joinWith ['\n']
        [['#', '#', ' ', 'Q', ':', ' ', 'A'], ['-', ' ', '[', 'x', ']', ' ', 'a']])
      ⟨false, false⟩ :=
  c10_crlf_insensitive
    [['#', '#', ' ', 'Q', ':', ' ', 'A'], ['-', ' ', '[', 'x', ']', ' ', 'a']]
    ⟨false, false⟩ (by decide)

/-- C2 counterexample: the claim says both entry points reject a question
with zero answers, but `parseQCMFromArray` accepts an item with an empty
`answers` array and returns a question with no answers. -/
theorem c2_counterexample :
    parseQCMFromArray [⟨some ['T'], some []⟩] ⟨false, false⟩ =
      .ok ⟨none, [⟨['T'], 1, [], false⟩]⟩ := by decide

/-- C2 (amended): `parseQCM` guarantees at least one answer per returned
question, and when the line phase succeeds but the first question without
answers sits at 0-based index `i`, the call fails with an error naming
position `i + 1` and that question's title; `parseQCMFromArray`, however,
performs no such check and can succeed with a zero-answer question. -/
theorem c2_min_one_answer :
    (∀ (md : List Char) (options : ParseOptions) (qcm : QCM),
      parseQCM md options = .ok qcm → ∀ q ∈ qcm.questions, q.answers ≠ []) ∧
    (∀ (md : List Char) (options : ParseOptions) (st : PState),
      runLines 0 ⟨none, [], none⟩ (splitLines md) = .ok st →
      ∀ i (hi : i < (st.questions ++ st.current.toList).length),
        ((st.questions ++ st.current.toList).get ⟨i, hi⟩).answers = [] →
        (∀ j (hj : j < (st.questions ++ st.current.toList).length), j < i →
          ((st.questions ++ st.current.toList).get ⟨j, hj⟩).answers ≠ []) →
        parseQCM md options = .error
          (.noAnswers (i + 1) ((st.questions ++ st.current.toList).get ⟨i, hi⟩).title)) ∧
    (∃ (items : List RawItem) (options : ParseOptions) (qcm : QCM),
      parseQCMFromArray items options = .ok qcm ∧ ∃ q ∈ qcm.questions, q.answers = []) := by
  refine ⟨?_, ?_, ?_⟩
  · intro md options qcm h
    exact parseQCM_ok_answers_ne_nil h
  · intro md options st hrun i hi hempty hprev
    exact parseQCM_error_noAnswers hrun hi hempty hprev
  · exact ⟨[⟨some ['T'], some []⟩], ⟨false, false⟩, ⟨none, [⟨['T'], 1, [], false⟩]⟩,
      by decide, ⟨['T'], 1, [], false⟩, by decide, rfl⟩

/-- Witness for C2 at a concrete parse. -/
theorem c2_min_one_answer_witness :
    (⟨['A'], 1, [⟨['a'], true⟩], false⟩ : Question).answers ≠ [] :=
  c2_min_one_answer.1
    ['#', '#', ' ', 'Q', ':', ' ', 'A', '\n', '-', ' ', '[', 'x', ']', ' ', 'a']
    ⟨false, false⟩ ⟨none, [⟨['A'], 1, [⟨['a'], true⟩], false⟩]⟩
    (by decide) _ (by decide)

/-- C3 counterexample: the claim says an absent `correct` field passes the
shape check and maps to `false`, but the code's
`[true, false, null].includes(ans.correct)` is false for `undefined`, so an
answer with an absent `correct` is rejected. -/
theorem c3_counterexample :
    parseQCMFromArray [⟨some ['T'], some [⟨some ['A'], .rundef⟩]⟩] ⟨false, false⟩ =
      .error (.malformedAnswer 1 1) := by decide

/-- C3 (amended): an answer record passes the shape check exactly when its
text is a string and its `correct` field is `true`, `false` or `null`
(`null` maps to `false`); an absent (`undefined`) `correct`, any other
`correct` value, or a non-string text is rejected with an error naming
the 1-based question and answer indices, and such an error propagates to
the `parseQCMFromArray` call. -/
theorem c3_answer_shape :
    ∀ (qIdx aIdx : Nat) (a : RawAnswer),
    (∀ t b, a.text = some t → a.correct = .rbool b →
      convAnswer qIdx aIdx a = .ok ⟨trim t, b⟩) ∧
    (∀ t, a.text = some t → a.correct = .rnull →
      convAnswer qIdx aIdx a = .ok ⟨trim t, false⟩) ∧
    (a.text = none ∨ a.correct = .rundef ∨ a.correct = .rother →
      convAnswer qIdx aIdx a = .error (.malformedAnswer (qIdx + 1) (aIdx + 1))) ∧
    (∀ t (options : ParseOptions) e, convAnswer 0 0 a = .error e →
      parseQCMFromArray [⟨some t, some [a]⟩] options = .error e) := by
  intro qIdx aIdx a
  refine ⟨?_, ?_, ?_, ?_⟩
  · intro t b ht hb
    unfold convAnswer
    rw [ht, hb]
  · intro t ht hn
    unfold convAnswer
    rw [ht, hn]
  · intro h
    unfold convAnswer
    rcases h with h | h | h
    · rw [h]
    · rw [h]
      cases a.text <;> rfl
    · rw [h]
      cases a.text <;> rfl
  · intro t options e h
    exact parseQCMFromArray_single_bad_answer h options

/-- Witness for C3: a `null` `correct` is accepted and mapped to `false`. -/
theorem c3_answer_shape_witness :
    convAnswer 0 0 ⟨some ['A'], .rnull⟩ = .ok ⟨['A'], false⟩ :=
  (c3_answer_shape 0 0 ⟨some ['A'], .rnull⟩).2.1 ['A'] rfl rfl

/-- C1 counterexample: the questionnaire title `" T "` is present and
non-empty after trimming, so it satisfies the claim's stated invariants,
yet the round trip returns the trimmed title `"T"`, which differs from the
original — the claim's equality in the `title` field fails. -/
theorem c1_counterexample :
    parseQCM (jsonToMd ⟨some [' ', 'T', ' '], []⟩) ⟨false, false⟩ =
      .ok ⟨some ['T'], []⟩ ∧
    (some [' ', 'T', ' '] : Option (List Char)) ≠ some ['T'] := by
  constructor <;> decide

/-- C1 (amended): for every questionnaire whose free-text fields (the
title when present, the question titles and the answer texts) are
non-empty, already trimmed and free of line-terminator characters, whose
questions each have a positive score and at least one answer,
`parseQCM (jsonToMd q) {}` returns a questionnaire equal to `q` in title,
question order, question titles, scores, answer order, answer text and
correctness, with `multipleAnswers` re-derived as the count of correct
answers exceeding 1. -/
theorem c1_roundtrip (qcm : QCM) (hg : goodQCM qcm) :
    parseQCM (jsonToMd qcm) ⟨false, false⟩ =
      .ok ⟨qcm.title, qcm.questions.map deriveQ⟩ :=
  roundtrip_core qcm hg

/-- Witness for C1 at a concrete questionnaire (whose carried
`multipleAnswers` flag is deliberately wrong and gets re-derived). -/
theorem c1_roundtrip_witness :
    parseQCM (jsonToMd ⟨some ['S'],
        [⟨['Q', '1'], 2, [⟨['a'], true⟩, ⟨['b'], false⟩], true⟩]⟩) ⟨false, false⟩ =
      .ok ⟨some ['S'], [⟨['Q', '1'], 2, [⟨['a'], true⟩, ⟨['b'], false⟩], false⟩]⟩ :=
  c1_roundtrip ⟨some ['S'], [⟨['Q', '1'], 2, [⟨['a'], true⟩, ⟨['b'], false⟩], true⟩]⟩
    ⟨by intro t ht; cases ht; decide, by decide⟩

/-- C4 counterexample: a bracketed `[0]` yields score `0`, which is not
positive, so "every question ... has a score that is a positive integer"
fails (the extraction part of the claim still holds: the score equals the
bracketed integer). -/
theorem c4_counterexample :
    parseQCM ['#', '#', ' ', 'Q', ':', ' ', 'T', ' ', '[', '0', ']', '\n',
        '-', ' ', '[', 'x', ']', ' ', 'A'] ⟨false, false⟩ =
      .ok ⟨none, [⟨['T'], 0, [⟨['A'], true⟩], false⟩]⟩ ∧ ¬0 < (0 : Nat) := by
  constructor
  · decide
  · omega

/-- C4 (amended): every produced score is the trailing bracketed integer
of the (trimmed) source title when one is present — this integer may be
`0`, so scores are non-negative but not always positive — and `1` when
none is present.  Concretely: (1) appending `[n]` to any text makes
`extractScore` return `n`; (2) on a text without a trailing bracketed
digit run it returns `1` and leaves the text unchanged; (3) every question
of a successful `parseQCM` draws its score from `extractScore` applied to
the capture of a question-header line of the input; (4) every question of
a successful `parseQCMFromArray` draws its score from `extractScore`
applied to its item's trimmed title. -/
theorem c4_score_extraction :
    (∀ (t : List Char) (n : Nat),
      extractScore (t ++ '[' :: (natToChars n ++ [']'])) = (n, trim t)) ∧
    (∀ text : List Char, endsWithScoreB text = false → extractScore text = (1, text)) ∧
    (∀ (md : List Char) (options : ParseOptions) (qcm : QCM),
      parseQCM md options = .ok qcm →
      ∀ q ∈ qcm.questions, ∃ raw ∈ splitLines md, ∃ cap,
        matchQuestion (trim raw) = some cap ∧
        q.score = (extractScore (trim cap)).1) ∧
    (∀ (items : List RawItem) (options : ParseOptions) (qcm : QCM),
      parseQCMFromArray items options = .ok qcm →
      List.Forall₂ (fun (item : RawItem) (q : Question) =>
        ∃ t, item.title = some t ∧ q.score = (extractScore (trim t)).1)
        items qcm.questions) := by
  refine ⟨extractScore_append_bracket, @extractScore_of_no_bracket, ?_, ?_⟩
  · intro md options qcm h q hq
    obtain ⟨raw, hraw, cap, hcap, hs, _⟩ := parseQCM_opened h q hq
    exact ⟨raw, hraw, cap, hcap, hs⟩
  · intro items options qcm h
    obtain ⟨qs, hconv, _, hqs⟩ := parseQCMFromArray_ok_questions h
    rw [hqs]
    refine forall2_map_right ((convItems_ok_forall2 hconv).imp ?_)
    intro item q hr
    obtain ⟨t, ht, hs, _, _⟩ := hr
    exact ⟨t, ht, hs⟩

/-- Witness for C4: a plain title gets the default score 1. -/
theorem c4_score_extraction_witness :
    extractScore ['F', 'o', 'o'] = (1, ['F', 'o', 'o']) :=
  c4_score_extraction.2.1 ['F', 'o', 'o'] (by decide)

/-- C7 counterexample: the first title line has an empty remainder, so
`qcm.title` is set to the empty string, which is falsy; the second
title-shaped line is therefore classified under the title rule again
(setting the title to `"X"` and succeeding) instead of falling through to
the remaining classifications as the claim asserts. -/
theorem c7_counterexample :
    parseQCM ['#', ' ', 'T', 'i', 't', 'l', 'e', ':', '\n',
        '#', ' ', 'T', 'i', 't', 'l', 'e', ':', ' ', 'X'] ⟨false, false⟩ =
      .ok ⟨some ['X'], []⟩ := by decide

/-- C7 (amended): a title-shaped line is handled by the title rule
whenever the title recorded so far is falsy — unset or the empty string,
including the state after a first title line with an empty remainder —
and only a line of that shape arriving while the recorded title is a
non-empty string falls through to the remaining classifications (ending
in the unrecognized-syntax error when no other rule matches). -/
theorem c7_title_guard :
    (∀ (st : PState) (idx : Nat) (raw rem : List Char),
      matchTitle (trim raw) = some rem →
      (st.title = none ∨ st.title = some []) →
      processLine st idx raw = .ok { st with title := some (trim rem) }) ∧
    (∀ (st : PState) (idx : Nat) (raw rem tt : List Char),
      st.title = some tt → tt ≠ [] →
      matchTitle (trim raw) = some rem →
      matchQuestion (trim raw) = none →
      matchAnswer (trim raw) = none →
      trim raw ≠ [] →
      ¬commentStart.isPrefixOf (trim raw) →
      processLine st idx raw = .error (.unrecognized (idx + 1) raw)) := by
  constructor
  · intro st idx raw rem hm hfalsy
    exact processLine_title_falsy hfalsy hm
  · intro st idx raw rem tt ht htt hm hq ha hnb
    exact processLine_title_truthy_unrecognized ht htt hm hq ha hnb

/-- Witness for C7: with the empty-string title in the state, a second
title line is consumed by the title rule. -/
theorem c7_title_guard_witness :
    processLine ⟨some [], [], none⟩ 1
        ['#', ' ', 'T', 'i', 't', 'l', 'e', ':', ' ', 'X'] =
      .ok ⟨some ['X'], [], none⟩ :=
  c7_title_guard.1 ⟨some [], [], none⟩ 1
    ['#', ' ', 'T', 'i', 't', 'l', 'e', ':', ' ', 'X'] [' ', 'X']
    (by decide) (Or.inr rfl)

/-- C8 counterexample: a question header whose text is exactly a bracketed
score, `## Q: [3]`, produces a question whose title is the empty string —
empty after trimming — yet `parseQCM` succeeds. -/
theorem c8_counterexample :
    parseQCM ['#', '#', ' ', 'Q', ':', ' ', '[', '3', ']', '\n',
        '-', ' ', '[', 'x', ']', ' ', 'A'] ⟨false, false⟩ =
      .ok ⟨none, [⟨[], 3, [⟨['A'], true⟩], false⟩]⟩ := by decide

/-- C8 (amended): every question title returned by `parseQCM` is trimmed
(it equals its own trim), and an extracted title can be empty only when
the trimmed header text consisted of nothing but a bracketed digit run
(with optional surrounding whitespace); in every other case the title is
non-empty after trimming. -/
theorem c8_title_trimmed :
    (∀ (md : List Char) (options : ParseOptions) (qcm : QCM),
      parseQCM md options = .ok qcm →
      ∀ q ∈ qcm.questions, trim q.title = q.title) ∧
    (∀ text : List Char, trim text = text → (extractScore text).2 = [] →
      text = [] ∨ ∃ ds, ds ≠ [] ∧ (∀ c ∈ ds, isDigit c = true) ∧
        text = '[' :: (ds ++ [']'])) := by
  constructor
  · intro md options qcm h q hq
    obtain ⟨raw, hraw, cap, hcap, _, ht⟩ := parseQCM_opened h q hq
    rw [ht]
    exact extractScore_snd_trimmed (trim_trim cap)
  · intro text htr h
    exact extractScore_snd_empty htr h

/-- Witness for C8 at a concrete parse. -/
theorem c8_title_trimmed_witness :
    trim (['A'] : List Char) = ['A'] :=
  c8_title_trimmed.1
    ['#', '#', ' ', 'Q', ':', ' ', 'A', '\n', '-', ' ', '[', 'x', ']', ' ', 'a']
    ⟨false, false⟩ ⟨none, [⟨['A'], 1, [⟨['a'], true⟩], false⟩]⟩
    (by decide) ⟨['A'], 1, [⟨['a'], true⟩], false⟩ (by decide)

/-- C9 counterexample: the whitespace-only title `" "` is empty after
trimming, so by the claim the output should start directly with the first
question header; but `qcm.title` is truthy, so the code emits the line
`"# Title: "` (with an empty trimmed remainder) followed by a blank line. -/
theorem c9_counterexample :
    jsonToMd ⟨some [' '], [⟨['T'], 1, [⟨['A'], true⟩], false⟩]⟩ =
      ['#', ' ', 'T', 'i', 't', 'l', 'e', ':', ' ', '\n', '\n',
       '#', '#', ' ', 'Q', ':', ' ', 'T', ' ', '[', '1', ']', '\n',
       '-', ' ', '[', 'x', ']', ' ', 'A', '\n'] ∧
    trim [' '] = [] := by
  constructor <;> decide

/-- C9 (amended): `jsonToMd` emits the title line exactly when the title
field is truthy — present and non-empty as a raw string, before trimming.
When any question follows, the output is `"# Title: " ++ trim title`, a
blank line, then the first question header; with a falsy title (absent or
the empty string) the output starts directly with the first question
header; with a truthy title and no questions the output is the title line
right-trimmed plus the final newline (so a whitespace-only title leaves a
dangling `"# Title:"` prefix rather than no title line). -/
theorem c9_title_emission :
    (∀ (qcm : QCM) (t : List Char) (q0 : Question) (qs' : List Question),
      qcm.title = some t → t ≠ [] → qcm.questions = q0 :: qs' →
      ∃ rest, jsonToMd qcm =
        titleTag ++ trim t ++ '\n' :: '\n' :: (headerOf q0 ++ rest)) ∧
    (∀ (qcm : QCM) (q0 : Question) (qs' : List Question),
      (qcm.title = none ∨ qcm.title = some []) → qcm.questions = q0 :: qs' →
      ∃ rest, jsonToMd qcm = headerOf q0 ++ rest) ∧
    (∀ (qcm : QCM) (t : List Char),
      qcm.title = some t → t ≠ [] → qcm.questions = [] →
      jsonToMd qcm = trimEndL (titleTag ++ trim t) ++ ['\n']) := by
  refine ⟨?_, ?_, ?_⟩
  · intro qcm t q0 qs' ht htne hq
    exact jsonToMd_title_truthy ht htne hq
  · intro qcm q0 qs' ht hq
    exact jsonToMd_title_falsy ht hq
  · intro qcm t ht htne hq
    exact jsonToMd_title_truthy_no_questions ht htne hq

/-- Witness for C9: with an absent title the serialized text starts with
the question header. -/
theorem c9_title_emission_witness :
    ∃ rest, jsonToMd ⟨none, [⟨['T'], 1, [⟨['A'], true⟩], false⟩]⟩ =
      headerOf ⟨['T'], 1, [⟨['A'], true⟩], false⟩ ++ rest :=
  c9_title_emission.2.1 ⟨none, [⟨['T'], 1, [⟨['A'], true⟩], false⟩]⟩
    ⟨['T'], 1, [⟨['A'], true⟩], false⟩ [] (Or.inl rfl) rfl

end QcmParser
